import Mathlib

/-!
Verification of the voice-leading core of `optimal-voice-leading`
(`src/constants.py`, `src/graph_utils.py`, `src/chord_utils.py`), as a
shallow embedding: Python dictionaries become association lists or
functions, fallible operations (KeyError, IndexError, AttributeError,
unbound locals) become `Option`/`Except` results, and the `networkx`
graph is modelled by explicit node and edge lists with insertion-order
semantics.
-/

namespace VoiceLeading

/-! ## constants.py -/

/-- `NOTE_TO_MIDI_BASE` from `constants.py`: note names mapped to MIDI
numbers in the central octave. -/
def NOTE_TO_MIDI_BASE : List (String × Int) :=
  [("C", 60), ("C#", 61), ("Db", 61), ("D", 62), ("D#", 63), ("Eb", 63),
   ("E", 64), ("F", 65), ("F#", 66), ("Gb", 66), ("G", 67), ("G#", 68),
   ("Ab", 68), ("A", 69), ("A#", 70), ("Bb", 70), ("B", 71)]

/-- Dictionary lookup `NOTE_TO_MIDI_BASE[note]`; `none` models a Python
`KeyError`. -/
def noteBase (note : String) : Option Int :=
  NOTE_TO_MIDI_BASE.lookup note

/-! ## graph_utils.find_all_triads_in_range -/

/-- `range(-2, 3)` from `find_all_triads_in_range`. -/
def octaveRange : List Int := [-2, -1, 0, 1, 2]

/-- `itertools.product(range(-2, 3), repeat=n)`: all length-`n` lists over
`octaveRange`, first coordinate varying slowest. -/
def octaveCombinations : Nat → List (List Int)
  | 0 => [[]]
  | n + 1 => octaveRange.flatMap fun o => (octaveCombinations n).map fun t => o :: t

/-- Python's `sorted` on integers: a stable ascending sort. -/
def pySorted (l : List Int) : List Int :=
  List.insertionSort (fun a b => a ≤ b) l

/-- The filter condition of `find_all_triads_in_range`, line by line:
all notes within `midi_range`, `midi_notes == sorted(midi_notes)`, and no
two neighbouring notes more than an octave apart. -/
def triadFilterCond (midi_range : Int × Int) (midi_notes : List Int) : Prop :=
  (∀ m ∈ midi_notes, midi_range.1 ≤ m ∧ m ≤ midi_range.2) ∧
  midi_notes = pySorted midi_notes ∧
  (∀ p ∈ midi_notes.zip midi_notes.tail, (p.2 - p.1).natAbs ≤ 12)

instance (mr : Int × Int) (l : List Int) : Decidable (triadFilterCond mr l) := by
  unfold triadFilterCond; infer_instance

/-- `find_all_triads_in_range(notes, midi_range)` from `graph_utils.py`.
`none` models the `KeyError` raised when a note name is missing from
`NOTE_TO_MIDI_BASE`. -/
def find_all_triads_in_range (notes : List String) (midi_range : Int × Int) :
    Option (List (List Int)) := do
  let base_midis ← notes.mapM noteBase
  return (octaveCombinations notes.length).filterMap fun octaves =>
    let midi_notes := (base_midis.zip octaves).map fun p => p.1 + p.2 * 12
    if triadFilterCond midi_range midi_notes then some midi_notes else none

/-- `sum(abs(curr_midi - prev_midi) for prev_midi, curr_midi in
zip(current_midi_notes, next_midi_notes))`: the voice-leading cost between
two voicings, by tuple position. -/
def transition_cost (current next : List Int) : Nat :=
  (((current.zip next).map fun p => (p.2 - p.1).natAbs)).sum

/-! ### Basic facts about `find_all_triads_in_range` -/

theorem lookup_mem_snd {l : List (String × Int)} {k : String} {v : Int}
    (h : l.lookup k = some v) : v ∈ l.map Prod.snd := by
  induction l with
  | nil => simp [List.lookup] at h
  | cons a as ih =>
    rw [List.lookup] at h
    by_cases hk : k == a.1
    · simp [hk] at h; simp [h]
    · simp [hk] at h; simpa using Or.inr (ih h)

theorem noteBase_bounds {n : String} {b : Int} (h : noteBase n = some b) :
    60 ≤ b ∧ b ≤ 71 := by
  have hm := lookup_mem_snd h
  have : ∀ v ∈ NOTE_TO_MIDI_BASE.map Prod.snd, 60 ≤ v ∧ v ≤ 71 := by decide
  exact this b hm

/-- Membership in the result of `find_all_triads_in_range`, unfolded. -/
theorem mem_find_all_triads {notes : List String} {mr : Int × Int}
    {out : List (List Int)} {t : List Int}
    (h : find_all_triads_in_range notes mr = some out) (ht : t ∈ out) :
    ∃ base_midis octaves, notes.mapM noteBase = some base_midis ∧
      octaves ∈ octaveCombinations notes.length ∧
      t = (base_midis.zip octaves).map (fun p => p.1 + p.2 * 12) ∧
      triadFilterCond mr t := by
  unfold find_all_triads_in_range at h
  cases hmb : notes.mapM noteBase with
  | none => rw [hmb] at h; simp at h
  | some base_midis =>
    rw [hmb] at h
    simp only [Option.bind_eq_bind, Option.some_bind, Option.pure_def,
      Option.some.injEq] at h
    subst h
    rcases List.mem_filterMap.mp ht with ⟨octaves, hoct, hcond⟩
    by_cases hc : triadFilterCond mr ((base_midis.zip octaves).map fun p => p.1 + p.2 * 12)
    · simp only [if_pos hc, Option.some.injEq] at hcond
      exact ⟨base_midis, octaves, rfl, hoct, hcond.symm, hcond ▸ hc⟩
    · simp [if_neg hc] at hcond

theorem octaveCombinations_mem {n : Nat} {oc : List Int}
    (h : oc ∈ octaveCombinations n) : oc.length = n ∧ ∀ o ∈ oc, o ∈ octaveRange := by
  induction n generalizing oc with
  | zero => simp [octaveCombinations] at h; simp [h]
  | succ k ih =>
    simp only [octaveCombinations, List.mem_flatMap, List.mem_map] at h
    rcases h with ⟨o, ho, t, ht, rfl⟩
    rcases ih ht with ⟨hlen, hall⟩
    refine ⟨by simp [hlen], ?_⟩
    intro x hx
    rcases List.mem_cons.mp hx with rfl | hx
    · exact ho
    · exact hall x hx

/-- Completeness of the octave-shift enumeration: every length-`n` list
over `octaveRange` is produced. -/
theorem octaveCombinations_complete {n : Nat} {oc : List Int}
    (hlen : oc.length = n) (hall : ∀ o ∈ oc, o ∈ octaveRange) :
    oc ∈ octaveCombinations n := by
  induction n generalizing oc with
  | zero => simp [octaveCombinations, List.length_eq_zero.mp hlen]
  | succ k ih =>
    cases oc with
    | nil => simp at hlen
    | cons o t =>
      simp only [octaveCombinations, List.mem_flatMap, List.mem_map]
      refine ⟨o, hall o (by simp), t, ih (by simpa using hlen) ?_, rfl⟩
      intro x hx; exact hall x (by simp [hx])

/-- Adjacent-pair conditions phrased on `zip l l.tail` (as the code
indexes them) coincide with `List.Chain'`. -/
theorem zip_tail_forall_iff_chain {R : Int → Int → Prop} {l : List Int} :
    (∀ p ∈ l.zip l.tail, R p.1 p.2) ↔ List.Chain' R l := by
  induction l with
  | nil => simp
  | cons a t ih =>
    cases t with
    | nil => simp
    | cons b t2 =>
      have hzip : (a :: b :: t2).zip (a :: b :: t2).tail
          = (a, b) :: (b :: t2).zip t2 := rfl
      rw [List.chain'_cons, hzip]
      constructor
      · intro h
        exact ⟨h (a, b) (by simp), ih.mp fun p hp => h p (List.mem_cons_of_mem _ hp)⟩
      · rintro ⟨hab, hc⟩ p hp
        rcases List.mem_cons.mp hp with rfl | hp2
        · exact hab
        · exact ih.mpr hc p hp2

/-- `midi_notes == sorted(midi_notes)` holds exactly for non-decreasing
lists. -/
theorem pySorted_self_iff {l : List Int} :
    l = pySorted l ↔ List.Chain' (· ≤ ·) l := by
  constructor
  · intro h
    have hs : List.Sorted (fun a b : Int => a ≤ b) (pySorted l) :=
      List.sorted_insertionSort _ l
    rw [← h] at hs
    exact List.chain'_iff_pairwise.mpr hs
  · intro h
    exact (List.Sorted.insertionSort_eq (List.chain'_iff_pairwise.mp h)).symm

theorem mapM_noteBase_mem {notes : List String} {bm : List Int}
    (h : notes.mapM noteBase = some bm) :
    bm.length = notes.length ∧ ∀ b ∈ bm, ∃ n ∈ notes, noteBase n = some b := by
  induction notes generalizing bm with
  | nil =>
    simp only [List.mapM_nil, Option.pure_def, Option.some.injEq] at h
    simp [← h]
  | cons n ns ih =>
    simp only [List.mapM_cons, Option.bind_eq_bind, Option.pure_def,
      Option.bind_eq_some, Option.some.injEq] at h
    rcases h with ⟨b, hb, bm', hbm', rfl⟩
    rcases ih hbm' with ⟨hlen, hmem⟩
    refine ⟨by simp [hlen], ?_⟩
    intro x hx
    rcases List.mem_cons.mp hx with rfl | hx
    · exact ⟨n, by simp, hb⟩
    · rcases hmem x hx with ⟨m, hm, hnb⟩
      exact ⟨m, by simp [hm], hnb⟩

/-- Every pitch of every returned voicing is a table base pitch shifted by
an octave offset in `octaveRange`. -/
theorem mem_find_all_pitch_shape {notes : List String} {mr : Int × Int}
    {out : List (List Int)} {t : List Int} {m : Int}
    (h : find_all_triads_in_range notes mr = some out) (ht : t ∈ out) (hm : m ∈ t) :
    ∃ b o, 60 ≤ b ∧ b ≤ 71 ∧ o ∈ octaveRange ∧ m = b + o * 12 := by
  rcases mem_find_all_triads h ht with ⟨bm, oc, hbm, hoc, hshape, _⟩
  subst hshape
  rcases List.mem_map.mp hm with ⟨p, hp, rfl⟩
  have hp1 := (List.of_mem_zip hp).1
  have hp2 := (List.of_mem_zip hp).2
  rcases (mapM_noteBase_mem hbm).2 p.1 hp1 with ⟨n, _, hnb⟩
  rcases noteBase_bounds hnb with ⟨h60, h71⟩
  exact ⟨p.1, p.2, h60, h71, (octaveCombinations_mem hoc).2 p.2 hp2, rfl⟩

/-! ### Claims C3 and C9 -/

/-- C3: the claim asserts that every returned tuple is *strictly*
ascending; the code only checks `midi_notes == sorted(midi_notes)`, which
admits equal neighbours.  For the repeated note list `["C", "C"]` and
range `(60, 71)` the function returns the non-strictly-ascending tuple
`[60, 60]`. -/
theorem C3_counterexample :
    find_all_triads_in_range ["C", "C"] (60, 71) = some [[60, 60]] ∧
    ¬ List.Chain' (· < ·) [(60 : Int), 60] := by
  constructor
  · decide
  · rw [List.chain'_cons]
    simp

/-- C3 (amended): every tuple returned by `find_all_triads_in_range` has
*non-decreasing* pitches (strictness can fail only for lists with
repeated or enharmonically equal note names), every adjacent pair differs
by at most 12, and every value lies within the requested range. -/
theorem C3_spec {notes : List String} {mr : Int × Int}
    {out : List (List Int)} {t : List Int}
    (h : find_all_triads_in_range notes mr = some out) (ht : t ∈ out) :
    List.Chain' (· ≤ ·) t ∧
    List.Chain' (fun a b => (b - a).natAbs ≤ 12) t ∧
    ∀ m ∈ t, mr.1 ≤ m ∧ m ≤ mr.2 := by
  rcases mem_find_all_triads h ht with ⟨bm, oc, _, _, _, hrange, hsorted, hgap⟩
  exact ⟨pySorted_self_iff.mp hsorted, zip_tail_forall_iff_chain.mp hgap, hrange⟩

theorem C3_witness :
    List.Chain' (· ≤ ·) [(60 : Int), 64, 67] ∧
    List.Chain' (fun a b : Int => (b - a).natAbs ≤ 12) [(60 : Int), 64, 67] ∧
    ∀ m ∈ [(60 : Int), 64, 67], (60 : Int) ≤ m ∧ m ≤ 71 :=
  @C3_spec ["C", "E", "G"] (60, 71)
    ((find_all_triads_in_range ["C", "E", "G"] (60, 71)).getD []) [60, 64, 67]
    (by decide) (by decide)

/-- C9: regardless of how wide the caller-supplied range is, every pitch
in every returned tuple lies in the fixed interval `[36, 95]`: base
pitches lie in `[60, 71]` and octave shifts range over `-2..2`. -/
theorem C9_spec {notes : List String} {mr : Int × Int}
    {out : List (List Int)} {t : List Int}
    (h : find_all_triads_in_range notes mr = some out) (ht : t ∈ out) :
    ∀ m ∈ t, 36 ≤ m ∧ m ≤ 95 := by
  intro m hm
  rcases mem_find_all_pitch_shape h ht hm with ⟨b, o, h60, h71, ho, rfl⟩
  have hb : -2 ≤ o ∧ o ≤ 2 := by
    simp only [octaveRange, List.mem_cons, List.not_mem_nil, or_false] at ho
    rcases ho with rfl | rfl | rfl | rfl | rfl <;> omega
  omega

theorem C9_witness :
    (36 : Int) ≤ 36 ∧ (36 : Int) ≤ 95 :=
  @C9_spec ["C", "G", "E"] (0, 127)
    ((find_all_triads_in_range ["C", "G", "E"] (0, 127)).getD []) [36, 43, 52]
    (by decide) (by decide) 36 (by decide)

/-! ### Claim C2: completeness of the enumeration -/

/-- `t` realizes the pitch classes of the note-name list `notes`,
position by position: equal length, and each pitch is congruent mod 12 to
the base pitch of its note name. -/
def RealizesArrangement (notes : List String) (t : List Int) : Prop :=
  t.length = notes.length ∧
  ∀ p ∈ notes.zip t, ∃ b, noteBase p.1 = some b ∧ (p.2 - b) % 12 = 0

instance (p : String × Int) :
    Decidable (∃ b, noteBase p.1 = some b ∧ (p.2 - b) % 12 = 0) :=
  match h : noteBase p.1 with
  | none => isFalse (by simp [h])
  | some b => decidable_of_iff ((p.2 - b) % 12 = 0) (by simp [h])

instance (notes : List String) (t : List Int) :
    Decidable (RealizesArrangement notes t) := by
  unfold RealizesArrangement; infer_instance

/-- A realizing tuple whose pitches all lie in `[36, 95]` is reached by
octave shifts from `-2..2`. -/
theorem realizes_shift {notes : List String} {t : List Int}
    (hlen : t.length = notes.length)
    (hr : ∀ p ∈ notes.zip t, ∃ b, noteBase p.1 = some b ∧ (p.2 - b) % 12 = 0)
    (hrange : ∀ m ∈ t, 36 ≤ m ∧ m ≤ 95) :
    ∃ bm oc, notes.mapM noteBase = some bm ∧
      oc ∈ octaveCombinations notes.length ∧
      (bm.zip oc).map (fun p => p.1 + p.2 * 12) = t := by
  induction notes generalizing t with
  | nil =>
    refine ⟨[], [], rfl, by simp [octaveCombinations], ?_⟩
    simp [List.length_eq_zero.mp hlen]
  | cons n ns ih =>
    cases t with
    | nil => simp at hlen
    | cons x xs =>
      obtain ⟨b, hb, hmod⟩ := hr (n, x) (by simp)
      obtain ⟨bm, oc, hbm, hoc, hmap⟩ := @ih xs (by simpa using hlen)
        (fun p hp => hr p (List.mem_cons_of_mem _ hp))
        (fun m hm => hrange m (List.mem_cons_of_mem _ hm))
      have hdvd : (12 : Int) ∣ (x - b) := Int.dvd_of_emod_eq_zero hmod
      have hx : x = b + (x - b) / 12 * 12 := by
        have := Int.ediv_mul_cancel hdvd
        omega
      have hbb := noteBase_bounds hb
      have hxr := hrange x (by simp)
      have hk : (x - b) / 12 ∈ octaveRange := by
        have h1 : (-35 : Int) ≤ (x - b) / 12 * 12 := by omega
        have h2 : (x - b) / 12 * 12 ≤ (35 : Int) := by omega
        simp only [octaveRange, List.mem_cons, List.not_mem_nil, or_false]
        omega
      refine ⟨b :: bm, (x - b) / 12 :: oc, ?_, ?_, ?_⟩
      · simp only [List.mapM_cons, hb, hbm, Option.bind_eq_bind,
          Option.some_bind, Option.pure_def]
      · simp only [octaveCombinations, List.length_cons, List.mem_flatMap,
          List.mem_map]
        exact ⟨(x - b) / 12, hk, oc, hoc, rfl⟩
      · simp only [List.zip_cons_cons, List.map_cons, hmap]
        rw [← hx]

/-- C2: the claim asserts completeness over *all* realizing tuples in the
requested range, but the enumeration only explores octave shifts in
`-2..2`, so for a range wider than `[36, 95]` realizing tuples near the
extremes are missed: for the arrangement `["C", "E", "G"]` and range
`(0, 127)`, the tuple `[24, 28, 31]` realizes the pitch classes, is
strictly ascending with adjacent gaps at most 12 and lies in the range,
yet it is absent from the returned list. -/
theorem C2_counterexample :
    RealizesArrangement ["C", "E", "G"] [24, 28, 31] ∧
    List.Chain' (· < ·) [(24 : Int), 28, 31] ∧
    List.Chain' (fun a b : Int => (b - a).natAbs ≤ 12) [(24 : Int), 28, 31] ∧
    (∀ m ∈ [(24 : Int), 28, 31], 0 ≤ m ∧ m ≤ 127) ∧
    (find_all_triads_in_range ["C", "E", "G"] (0, 127)).map
      (fun out => decide ([(24 : Int), 28, 31] ∈ out)) = some false := by
  refine ⟨by decide, ?_, ?_, by decide, by decide⟩
  · rw [List.chain'_cons, List.chain'_cons]
    simp
  · rw [List.chain'_cons, List.chain'_cons]
    simp

/-- C2 (amended): completeness holds for ranges contained in the
reachable window `[36, 95]`: for `36 ≤ lo` and `hi ≤ 95`, every strictly
ascending tuple realizing the arrangement's pitch classes, lying in
`[lo, hi]` and with adjacent gaps at most 12, appears in the output of
`find_all_triads_in_range`. -/
theorem C2_spec {notes : List String} {lo hi : Int} {t : List Int}
    (hlo : 36 ≤ lo) (hhi : hi ≤ 95)
    (hreal : RealizesArrangement notes t)
    (hasc : List.Chain' (· < ·) t)
    (hgap : List.Chain' (fun a b => (b - a).natAbs ≤ 12) t)
    (hrange : ∀ m ∈ t, lo ≤ m ∧ m ≤ hi) :
    ∃ out, find_all_triads_in_range notes (lo, hi) = some out ∧ t ∈ out := by
  obtain ⟨hlen, hr⟩ := hreal
  obtain ⟨bm, oc, hbm, hoc, hmap⟩ := realizes_shift hlen hr
    (fun m hm => by have := hrange m hm; omega)
  have hcond : triadFilterCond (lo, hi) t :=
    ⟨hrange, pySorted_self_iff.mpr (List.Chain'.imp (fun a b hab => le_of_lt hab) hasc),
      zip_tail_forall_iff_chain.mpr hgap⟩
  refine ⟨(octaveCombinations notes.length).filterMap fun octaves =>
      let midi_notes := (bm.zip octaves).map fun p => p.1 + p.2 * 12
      if triadFilterCond (lo, hi) midi_notes then some midi_notes else none,
    ?_, ?_⟩
  · unfold find_all_triads_in_range
    rw [hbm]
    rfl
  · apply List.mem_filterMap.mpr
    exact ⟨oc, hoc, by rw [hmap, if_pos hcond]⟩

theorem C2_witness :
    ∃ out, find_all_triads_in_range ["C", "E", "G"] (60, 72) = some out ∧
      [(60 : Int), 64, 67] ∈ out :=
  C2_spec (by decide) (by decide) (by decide)
    (by rw [List.chain'_cons, List.chain'_cons]; simp)
    (by rw [List.chain'_cons, List.chain'_cons]; simp)
    (by decide)

/-! ### Claim C8: algebraic properties of the transition cost -/

theorem transition_cost_comm (a b : List Int) :
    transition_cost a b = transition_cost b a := by
  induction a generalizing b with
  | nil => cases b <;> simp [transition_cost]
  | cons x xs ih =>
    cases b with
    | nil => simp [transition_cost]
    | cons y ys =>
      have h1 : transition_cost (x :: xs) (y :: ys)
          = (y - x).natAbs + transition_cost xs ys := by simp [transition_cost]
      have h2 : transition_cost (y :: ys) (x :: xs)
          = (x - y).natAbs + transition_cost ys xs := by simp [transition_cost]
      rw [h1, h2, ih ys]
      omega

theorem transition_cost_eq_zero_iff {a b : List Int} (h : a.length = b.length) :
    transition_cost a b = 0 ↔ a = b := by
  induction a generalizing b with
  | nil =>
    cases b with
    | nil => simp [transition_cost]
    | cons y ys => simp at h
  | cons x xs ih =>
    cases b with
    | nil => simp at h
    | cons y ys =>
      have hxy : transition_cost (x :: xs) (y :: ys)
          = (y - x).natAbs + transition_cost xs ys := by simp [transition_cost]
      rw [hxy, Nat.add_eq_zero, ih (by simpa using h)]
      constructor
      · rintro ⟨h1, rfl⟩
        have hx : x = y := by omega
        rw [hx]
      · intro h2
        obtain ⟨rfl, rfl⟩ := List.cons.inj h2
        exact ⟨by omega, rfl⟩

/-- C8: the transition cost — the sum over tuple positions of absolute
pitch differences — is symmetric, and for equal-length voicings it is
zero exactly when the voicings are identical; hence a candidate
transition in the repeated-chord rule has strictly positive cost exactly
when the target voicing differs from the source voicing. -/
theorem C8_spec (a b : List Int) (h : a.length = b.length) :
    transition_cost a b = transition_cost b a ∧
    (transition_cost a b = 0 ↔ a = b) ∧
    (0 < transition_cost a b ↔ a ≠ b) := by
  have hz := transition_cost_eq_zero_iff h
  refine ⟨transition_cost_comm a b, hz, ?_⟩
  constructor
  · intro hpos heq
    have := hz.mpr heq
    omega
  · intro hne
    rcases Nat.eq_zero_or_pos (transition_cost a b) with h0 | h0
    · exact absurd (hz.mp h0) hne
    · exact h0

theorem C8_witness :
    transition_cost [60, 64, 67] [62, 65, 69]
        = transition_cost [62, 65, 69] [60, 64, 67] ∧
    (transition_cost [60, 64, 67] [62, 65, 69] = 0 ↔
        ([60, 64, 67] : List Int) = [62, 65, 69]) ∧
    (0 < transition_cost [60, 64, 67] [62, 65, 69] ↔
        ([60, 64, 67] : List Int) ≠ [62, 65, 69]) :=
  C8_spec [60, 64, 67] [62, 65, 69] rfl

/-! ## graph_utils.build_voice_leading_graph

The `nx.DiGraph` is modelled by explicit node and edge lists kept in
insertion order; `add_node` appends a missing node, `add_edge` ensures
both endpoints are present and inserts or overwrites the `(u, v)` edge. -/

/-- A graph node `(i, current_chord, current_inversion, tuple(midi_notes))`. -/
abbrev Node : Type := Nat × String × String × List Int

instance : DecidableEq Node :=
  inferInstanceAs (DecidableEq (Nat × String × String × List Int))

structure Graph where
  nodes : List Node
  edges : List (Node × Node × Nat)

instance : DecidableEq Graph := fun g1 g2 =>
  decidable_of_iff (g1.nodes = g2.nodes ∧ g1.edges = g2.edges)
    (by cases g1; cases g2; simp)

def emptyGraph : Graph := ⟨[], []⟩

/-- `graph.add_node(n)`. -/
def addNode (g : Graph) (n : Node) : Graph :=
  if n ∈ g.nodes then g else { g with nodes := g.nodes ++ [n] }

/-- Edge-list part of `add_edge`: overwrite the weight of an existing
`(u, v)` edge in place, or append a new edge. -/
def updateEdges (edges : List (Node × Node × Nat)) (u v : Node) (w : Nat) :
    List (Node × Node × Nat) :=
  if edges.any fun e => decide (e.1 = u ∧ e.2.1 = v) then
    edges.map fun e => if e.1 = u ∧ e.2.1 = v then (u, v, w) else e
  else
    edges ++ [(u, v, w)]

/-- `graph.add_edge(u, v, weight=w)`: adds missing endpoints, then
overwrites an existing `(u, v)` edge in place or appends a new one.
(Adding the endpoints does not change the edge list.) -/
def addEdge (g : Graph) (u v : Node) (w : Nat) : Graph :=
  { nodes := (addNode (addNode g u) v).nodes,
    edges := updateEdges g.edges u v w }

/-- Helper for `pySplit`: scan the characters, accumulating the current
word (reversed) and emitting it at each space run. -/
def pySplitChars : List Char → List Char → List String
  | [], acc => if acc = [] then [] else [String.mk acc.reverse]
  | c :: rest, acc =>
    if c = ' ' then
      if acc = [] then pySplitChars rest []
      else String.mk acc.reverse :: pySplitChars rest []
    else pySplitChars rest (c :: acc)

/-- Python's `str.split()` for the space-separated inversion strings:
splits on runs of spaces and drops empty pieces. -/
def pySplit (s : String) : List String :=
  pySplitChars s.data []

/-- The `next_nodes` accumulation of `build_voice_leading_graph`: for
each inversion of the next chord and each of its voicings in range, the
candidate target node at layer `i + 1` together with its transition cost
from `current_midi_notes`.  `none` models the `KeyError` on a missing
note name. -/
def nextNodes (mr : Int × Int) (i : Nat) (next_chord : String)
    (current_midi_notes : List Int) : List String → Option (List (Node × Nat))
  | [] => some []
  | next_inversion :: rest => do
      let combos ← find_all_triads_in_range (pySplit next_inversion) mr
      let tail ← nextNodes mr i next_chord current_midi_notes rest
      return (combos.map fun next_midi_notes =>
        ((i + 1, next_chord, next_inversion, next_midi_notes),
          transition_cost current_midi_notes next_midi_notes)) ++ tail

/-- The sort key `lambda x: x[1]` used on candidate lists. -/
def costLe (a b : Node × Nat) : Prop := a.2 ≤ b.2

instance : DecidableRel costLe :=
  fun a b => inferInstanceAs (Decidable (a.2 ≤ b.2))

instance : IsTotal (Node × Nat) costLe := ⟨fun a b => Nat.le_total a.2 b.2⟩

instance : IsTrans (Node × Nat) costLe := ⟨fun _ _ _ => Nat.le_trans⟩

/-- The repeated-chord selection: stable-sort the candidates by cost
(`next_nodes.sort(key=lambda x: x[1])`), take the first strictly
positive-cost entry, else fall back to `next_nodes[0]` of the sorted
list; `none` models the `IndexError` on an empty candidate list. -/
def selectRepeated (next_nodes : List (Node × Nat)) : Option (Node × Nat) :=
  match (List.insertionSort costLe next_nodes).filter fun p => decide (0 < p.2) with
  | p :: _ => some p
  | [] => (List.insertionSort costLe next_nodes).head?

/-- Edge insertion for one source node `u`: the repeated-chord branch
inserts only the selected edge, the general branch one edge per
candidate. -/
def insertEdgesFor (g : Graph) (same : Bool) (u : Node)
    (next_nodes : List (Node × Nat)) : Option Graph :=
  if same then
    match selectRepeated next_nodes with
    | some p => some (addEdge g u p.1 p.2)
    | none => none
  else
    some (next_nodes.foldl (fun h p => addEdge h u p.1 p.2) g)

/-- The loop over `current_midi_note_combinations`. -/
def buildCombos (mr : Int × Int) (i : Nat) (cc nc : String) (tnc : List String)
    (inv : String) : List (List Int) → Graph → Option Graph
  | [], g => some g
  | cm :: rest, g => do
      let u : Node := (i, cc, inv, cm)
      let g1 := addNode g u
      let cands ← nextNodes mr i nc cm tnc
      let g2 ← insertEdgesFor g1 (cc == nc) u cands
      buildCombos mr i cc nc tnc inv rest g2

/-- The loop over `triads[current_chord]`. -/
def buildInversions (mr : Int × Int) (i : Nat) (cc nc : String)
    (tnc : List String) : List String → Graph → Option Graph
  | [], g => some g
  | inv :: rest, g => do
      let combos ← find_all_triads_in_range (pySplit inv) mr
      let g2 ← buildCombos mr i cc nc tnc inv combos g
      buildInversions mr i cc nc tnc rest g2

/-- The loop over `range(len(chords) - 1)`. -/
def buildPairs (chords : List String) (mr : Int × Int)
    (triads : String → List String) : List Nat → Graph → Option Graph
  | [], g => some g
  | i :: rest, g => do
      let cc := chords.getD i ""
      let nc := chords.getD (i + 1) ""
      let g2 ← buildInversions mr i cc nc (triads nc) (triads cc) g
      buildPairs chords mr triads rest g2

/-- `build_voice_leading_graph(chords, midi_range, triads)` from
`graph_utils.py`. -/
def build_voice_leading_graph (chords : List String) (mr : Int × Int)
    (triads : String → List String) : Option Graph :=
  buildPairs chords mr triads (List.range (chords.length - 1)) emptyGraph

/-! ### Structural invariants of built graphs -/

/-- The stored weight of an edge is the transition cost between its
endpoint voicings. -/
def EdgeOK (e : Node × Node × Nat) : Prop :=
  e.2.2 = transition_cost e.1.2.2.2 e.2.1.2.2.2

/-- Invariants maintained by the builder: no duplicate nodes, at most
one edge per `(source, target)` pair, edge endpoints registered as
nodes, and every stored weight equal to the endpoint transition cost. -/
def GraphWF (g : Graph) : Prop :=
  g.nodes.Nodup ∧
  (g.edges.map fun e => (e.1, e.2.1)).Nodup ∧
  (∀ e ∈ g.edges, e.1 ∈ g.nodes ∧ e.2.1 ∈ g.nodes) ∧
  ∀ e ∈ g.edges, EdgeOK e

theorem emptyGraph_wf : GraphWF emptyGraph := by
  refine ⟨List.nodup_nil, List.nodup_nil, ?_, ?_⟩ <;> intro e he <;> cases he

theorem addNode_edges (g : Graph) (n : Node) : (addNode g n).edges = g.edges := by
  unfold addNode; split <;> rfl

theorem mem_addNode_nodes {g : Graph} {n x : Node} :
    x ∈ (addNode g n).nodes ↔ x ∈ g.nodes ∨ x = n := by
  unfold addNode; split
  · rename_i h
    exact ⟨Or.inl, fun hx => hx.elim id fun hxn => hxn ▸ h⟩
  · simp [List.mem_append]

theorem addNode_nodes_subset {g : Graph} {n : Node} :
    ∀ x ∈ g.nodes, x ∈ (addNode g n).nodes :=
  fun _ hx => mem_addNode_nodes.mpr (Or.inl hx)

theorem addNode_nodup {g : Graph} {n : Node} (h : g.nodes.Nodup) :
    (addNode g n).nodes.Nodup := by
  unfold addNode; split
  · exact h
  · rename_i hn
    rw [List.nodup_append]
    refine ⟨h, List.nodup_singleton n, ?_⟩
    intro x hx hxn
    simp only [List.mem_singleton] at hxn
    exact hn (hxn ▸ hx)

theorem addNode_wf {g : Graph} {n : Node} (h : GraphWF g) : GraphWF (addNode g n) := by
  obtain ⟨h1, h2, h3, h4⟩ := h
  refine ⟨addNode_nodup h1, ?_, ?_, ?_⟩
  · rw [addNode_edges]; exact h2
  · rw [addNode_edges]
    intro e he
    exact ⟨addNode_nodes_subset _ (h3 e he).1, addNode_nodes_subset _ (h3 e he).2⟩
  · rw [addNode_edges]; exact h4

theorem map_overwrite_id {edges : List (Node × Node × Nat)} {u v : Node} {w : Nat}
    (hok : ∀ e ∈ edges, e.1 = u → e.2.1 = v → e.2.2 = w) :
    (edges.map fun e => if e.1 = u ∧ e.2.1 = v then (u, v, w) else e) = edges := by
  conv_rhs => rw [← List.map_id edges]
  apply List.map_congr_left
  intro a ha
  by_cases hc : a.1 = u ∧ a.2.1 = v
  · rw [if_pos hc]
    have h3 := hok a ha hc.1 hc.2
    rw [← hc.1, ← hc.2, ← h3]
    rfl
  · rw [if_neg hc]
    rfl

theorem mem_updateEdges {edges : List (Node × Node × Nat)} {u v : Node} {w : Nat}
    (hok : ∀ e ∈ edges, e.1 = u → e.2.1 = v → e.2.2 = w) :
    ∀ e, e ∈ updateEdges edges u v w ↔ e ∈ edges ∨ e = (u, v, w) := by
  intro e
  unfold updateEdges
  split
  · rename_i hany
    rw [map_overwrite_id hok]
    simp only [List.any_eq_true, decide_eq_true_eq] at hany
    obtain ⟨e0, he0, h1, h2⟩ := hany
    have h3 := hok e0 he0 h1 h2
    constructor
    · exact Or.inl
    · rintro (he | rfl)
      · exact he
      · have : (u, v, w) = e0 := by rw [← h1, ← h2, ← h3]
        rw [this]; exact he0
  · simp [List.mem_append]

theorem updateEdges_keys_nodup {edges : List (Node × Node × Nat)} {u v : Node} {w : Nat}
    (h : (edges.map fun e => (e.1, e.2.1)).Nodup) :
    ((updateEdges edges u v w).map fun e => (e.1, e.2.1)).Nodup := by
  unfold updateEdges
  split
  · rename_i hany
    have hkeys : ((edges.map fun e => if e.1 = u ∧ e.2.1 = v then (u, v, w) else e).map
        fun e => (e.1, e.2.1)) = edges.map fun e => (e.1, e.2.1) := by
      rw [List.map_map]
      apply List.map_congr_left
      intro a _
      by_cases hc : a.1 = u ∧ a.2.1 = v
      · simp only [Function.comp_apply, if_pos hc]
        rw [← hc.1, ← hc.2]
      · simp only [Function.comp_apply, if_neg hc]
    rw [hkeys]
    exact h
  · rename_i hany
    simp only [List.any_eq_true, decide_eq_true_eq, not_exists, not_and] at hany
    rw [List.map_append, List.nodup_append]
    refine ⟨h, by simp, ?_⟩
    intro k hk hk1
    simp only [List.map_cons, List.map_nil, List.mem_singleton] at hk1
    rcases List.mem_map.mp hk with ⟨e, he, rfl⟩
    have h1 : e.1 = u := (Prod.ext_iff.mp hk1).1
    have h2 : e.2.1 = v := (Prod.ext_iff.mp hk1).2
    exact hany e he h1 h2

theorem addEdge_mem_nodes {g : Graph} {u v x : Node} {w : Nat} :
    x ∈ (addEdge g u v w).nodes ↔ x ∈ g.nodes ∨ x = u ∨ x = v := by
  show x ∈ (addNode (addNode g u) v).nodes ↔ _
  rw [mem_addNode_nodes, mem_addNode_nodes]
  tauto

theorem addEdge_mem_edges {g : Graph} {u v : Node} {w : Nat}
    (hwf : GraphWF g) (hok : EdgeOK (u, v, w)) :
    ∀ e, e ∈ (addEdge g u v w).edges ↔ e ∈ g.edges ∨ e = (u, v, w) := by
  have hw : w = transition_cost u.2.2.2 v.2.2.2 := hok
  have hok' : ∀ e ∈ g.edges, e.1 = u → e.2.1 = v → e.2.2 = w := by
    intro e he h1 h2
    have h3 : e.2.2 = transition_cost e.1.2.2.2 e.2.1.2.2.2 := hwf.2.2.2 e he
    rw [h3, h1, h2, ← hw]
  exact mem_updateEdges hok'

theorem addEdge_wf {g : Graph} {u v : Node} {w : Nat}
    (hwf : GraphWF g) (hok : EdgeOK (u, v, w)) : GraphWF (addEdge g u v w) := by
  obtain ⟨h1, h2, h3, h4⟩ := hwf
  refine ⟨addNode_nodup (addNode_nodup h1), updateEdges_keys_nodup h2, ?_, ?_⟩
  · intro e he
    rcases (addEdge_mem_edges ⟨h1, h2, h3, h4⟩ hok e).mp he with he' | rfl
    · exact ⟨addEdge_mem_nodes.mpr (Or.inl (h3 e he').1),
        addEdge_mem_nodes.mpr (Or.inl (h3 e he').2)⟩
    · exact ⟨addEdge_mem_nodes.mpr (Or.inr (Or.inl rfl)),
        addEdge_mem_nodes.mpr (Or.inr (Or.inr rfl))⟩
  · intro e he
    rcases (addEdge_mem_edges ⟨h1, h2, h3, h4⟩ hok e).mp he with he' | rfl
    · exact h4 e he'
    · exact hok

/-! ### Characterization of the candidate list and the selection rule -/

theorem nextNodes_mem {mr : Int × Int} {i : Nat} {nc : String} {cm : List Int}
    {tnc : List String} {cands : List (Node × Nat)}
    (h : nextNodes mr i nc cm tnc = some cands) :
    ∀ p, p ∈ cands ↔ ∃ inv combos m, inv ∈ tnc ∧
      find_all_triads_in_range (pySplit inv) mr = some combos ∧ m ∈ combos ∧
      p = ((i + 1, nc, inv, m), transition_cost cm m) := by
  induction tnc generalizing cands with
  | nil =>
    simp only [nextNodes, Option.some.injEq] at h
    subst h
    simp
  | cons inv rest ih =>
    simp only [nextNodes, Option.bind_eq_bind, Option.pure_def,
      Option.bind_eq_some, Option.some.injEq] at h
    rcases h with ⟨combos, hcombos, tail, htail, rfl⟩
    intro p
    rw [List.mem_append]
    constructor
    · rintro (hp | hp)
      · rcases List.mem_map.mp hp with ⟨m, hm, rfl⟩
        exact ⟨inv, combos, m, by simp, hcombos, hm, rfl⟩
      · rcases (ih htail p).mp hp with ⟨inv', combos', m, h1, h2, h3, h4⟩
        exact ⟨inv', combos', m, List.mem_cons_of_mem _ h1, h2, h3, h4⟩
    · rintro ⟨inv', combos', m, h1, h2, h3, rfl⟩
      rcases List.mem_cons.mp h1 with rfl | h1
      · left
        rw [hcombos] at h2
        obtain rfl := Option.some.inj h2
        exact List.mem_map.mpr ⟨m, h3, rfl⟩
      · right
        exact (ih htail _).mpr ⟨inv', combos', m, h1, h2, h3, rfl⟩

theorem nextNodes_shape {mr : Int × Int} {i : Nat} {nc : String} {cm : List Int}
    {tnc : List String} {cands : List (Node × Nat)}
    (h : nextNodes mr i nc cm tnc = some cands) :
    ∀ p ∈ cands, p.1.1 = i + 1 ∧ p.2 = transition_cost cm p.1.2.2.2 := by
  intro p hp
  rcases (nextNodes_mem h p).mp hp with ⟨inv, combos, m, _, _, _, rfl⟩
  exact ⟨rfl, rfl⟩

theorem selectRepeated_mem {cands : List (Node × Nat)} {q : Node × Nat}
    (h : selectRepeated cands = some q) : q ∈ cands := by
  unfold selectRepeated at h
  have hperm := List.perm_insertionSort costLe cands
  split at h
  · rename_i q0 l hfil
    obtain rfl := Option.some.inj h
    have hq0 : q0 ∈ (List.insertionSort costLe cands).filter
        fun p => decide (0 < p.2) := by
      rw [hfil]; simp
    exact hperm.mem_iff.mp (List.mem_of_mem_filter hq0)
  · rename_i hfil
    cases hsort : List.insertionSort costLe cands with
    | nil => rw [hsort] at h; cases h
    | cons a l =>
      rw [hsort] at h
      obtain rfl := Option.some.inj h
      exact hperm.mem_iff.mp (by rw [hsort]; simp)

/-- When some candidate has strictly positive cost, the selected edge has
the minimal strictly positive cost. -/
theorem selectRepeated_pos {cands : List (Node × Nat)} {q : Node × Nat}
    (h : selectRepeated cands = some q) (hex : ∃ p ∈ cands, 0 < p.2) :
    0 < q.2 ∧ ∀ p ∈ cands, 0 < p.2 → q.2 ≤ p.2 := by
  unfold selectRepeated at h
  have hperm := List.perm_insertionSort costLe cands
  have hsorted : List.Sorted costLe (List.insertionSort costLe cands) :=
    List.sorted_insertionSort costLe cands
  obtain ⟨p0, hp0, hp0pos⟩ := hex
  have hfilne : (List.insertionSort costLe cands).filter
      (fun p => decide (0 < p.2)) ≠ [] := by
    intro hnil
    rw [List.filter_eq_nil_iff] at hnil
    have hcontra := hnil p0 (hperm.mem_iff.mpr hp0)
    simp only [decide_eq_true_eq] at hcontra
    exact hcontra hp0pos
  split at h
  · rename_i q0 l hfil
    obtain rfl := Option.some.inj h
    have hsf : List.Sorted costLe ((List.insertionSort costLe cands).filter
        fun p => decide (0 < p.2)) := hsorted.filter _
    constructor
    · have hq0 : q0 ∈ (List.insertionSort costLe cands).filter
          fun p => decide (0 < p.2) := by rw [hfil]; simp
      simpa using List.of_mem_filter hq0
    · intro p hp hppos
      have hpf : p ∈ (List.insertionSort costLe cands).filter
          fun p => decide (0 < p.2) :=
        List.mem_filter.mpr ⟨hperm.mem_iff.mpr hp, by simpa using hppos⟩
      rw [hfil] at hpf hsf
      rcases List.mem_cons.mp hpf with rfl | hpl
      · exact le_refl _
      · exact List.rel_of_sorted_cons hsf p hpl
  · rename_i hfil
    exact absurd hfil hfilne

theorem selectRepeated_isSome {cands : List (Node × Nat)} (hne : cands ≠ []) :
    ∃ q, selectRepeated cands = some q := by
  unfold selectRepeated
  split
  · rename_i q l hfil
    exact ⟨q, rfl⟩
  · rename_i hfil
    cases hsort : List.insertionSort costLe cands with
    | nil =>
      have hperm := List.perm_insertionSort costLe cands
      rw [hsort] at hperm
      exact absurd (List.perm_nil.mp hperm.symm).symm (by simpa using hne)
    | cons a l =>
      exact ⟨a, rfl⟩

/-! ### Characterization of the edges inserted by the builder -/

/-- The edge chosen for source `u` towards candidate list `cands`:
either the repeated-chord selection (`same = true`) or any candidate
(`same = false`). -/
def EdgePick (same : Bool) (cands : List (Node × Nat)) (v : Node) (w : Nat) : Prop :=
  (same = true ∧ selectRepeated cands = some (v, w)) ∨
  (same = false ∧ (v, w) ∈ cands)

theorem foldl_addEdge_spec {u : Node} {cands : List (Node × Nat)} :
    ∀ {g : Graph}, GraphWF g →
      (∀ p ∈ cands, p.2 = transition_cost u.2.2.2 p.1.2.2.2) →
      GraphWF (cands.foldl (fun h p => addEdge h u p.1 p.2) g) ∧
      ∀ e, e ∈ (cands.foldl (fun h p => addEdge h u p.1 p.2) g).edges ↔
        e ∈ g.edges ∨ ∃ p ∈ cands, e = (u, p.1, p.2) := by
  induction cands with
  | nil =>
    intro g hwf _
    exact ⟨hwf, by simp⟩
  | cons p rest ih =>
    intro g hwf hok
    have hokp : EdgeOK (u, p.1, p.2) := hok p (by simp)
    have hwf1 := addEdge_wf hwf hokp
    obtain ⟨hwf', hmem'⟩ := ih hwf1 fun q hq => hok q (List.mem_cons_of_mem _ hq)
    refine ⟨hwf', ?_⟩
    intro e
    rw [List.foldl_cons, hmem' e, addEdge_mem_edges hwf hokp e]
    constructor
    · rintro ((he | rfl) | ⟨q, hq, rfl⟩)
      · exact Or.inl he
      · exact Or.inr ⟨p, by simp, rfl⟩
      · exact Or.inr ⟨q, List.mem_cons_of_mem _ hq, rfl⟩
    · rintro (he | ⟨q, hq, rfl⟩)
      · exact Or.inl (Or.inl he)
      · rcases List.mem_cons.mp hq with rfl | hq2
        · exact Or.inl (Or.inr rfl)
        · exact Or.inr ⟨q, hq2, rfl⟩

theorem insertEdgesFor_spec {g g' : Graph} {same : Bool} {u : Node}
    {cands : List (Node × Nat)}
    (h : insertEdgesFor g same u cands = some g')
    (hwf : GraphWF g)
    (hok : ∀ p ∈ cands, p.2 = transition_cost u.2.2.2 p.1.2.2.2) :
    GraphWF g' ∧
    ∀ e, e ∈ g'.edges ↔ e ∈ g.edges ∨
      ∃ v w, e = (u, v, w) ∧ EdgePick same cands v w := by
  unfold insertEdgesFor at h
  cases same with
  | true =>
    simp only [if_pos rfl] at h
    cases hsel : selectRepeated cands with
    | none => rw [hsel] at h; cases h
    | some p =>
      rw [hsel] at h
      obtain rfl := Option.some.inj h
      have hpmem := selectRepeated_mem hsel
      have hokp : EdgeOK (u, p.1, p.2) := hok p hpmem
      refine ⟨addEdge_wf hwf hokp, ?_⟩
      intro e
      rw [addEdge_mem_edges hwf hokp e]
      constructor
      · rintro (he | rfl)
        · exact Or.inl he
        · exact Or.inr ⟨p.1, p.2, rfl, Or.inl ⟨rfl, hsel⟩⟩
      · rintro (he | ⟨v, w, rfl, hpick⟩)
        · exact Or.inl he
        · rcases hpick with ⟨_, hsel'⟩ | ⟨hfalse, _⟩
          · rw [hsel] at hsel'
            obtain rfl := Option.some.inj hsel'
            exact Or.inr rfl
          · cases hfalse
  | false =>
    rw [if_neg Bool.false_ne_true] at h
    obtain rfl := Option.some.inj h
    obtain ⟨hwf', hmem'⟩ := foldl_addEdge_spec hwf hok
    refine ⟨hwf', ?_⟩
    intro e
    rw [hmem' e]
    constructor
    · rintro (he | ⟨p, hp, rfl⟩)
      · exact Or.inl he
      · exact Or.inr ⟨p.1, p.2, rfl, Or.inr ⟨rfl, hp⟩⟩
    · rintro (he | ⟨v, w, rfl, hpick⟩)
      · exact Or.inl he
      · rcases hpick with ⟨htrue, _⟩ | ⟨_, hmem⟩
        · cases htrue
        · exact Or.inr ⟨(v, w), hmem, rfl⟩

theorem buildCombos_spec {mr : Int × Int} {i : Nat} {cc nc : String}
    {tnc : List String} {inv : String} {combos : List (List Int)} :
    ∀ {g g' : Graph},
      buildCombos mr i cc nc tnc inv combos g = some g' →
      GraphWF g →
      GraphWF g' ∧
      ∀ e, e ∈ g'.edges ↔ e ∈ g.edges ∨ ∃ m ∈ combos, ∃ cands,
        nextNodes mr i nc m tnc = some cands ∧
        ∃ v w, e = ((i, cc, inv, m), v, w) ∧ EdgePick (cc == nc) cands v w := by
  induction combos with
  | nil =>
    intro g g' h hwf
    simp only [buildCombos, Option.some.injEq] at h
    subst h
    exact ⟨hwf, by simp⟩
  | cons cm rest ih =>
    intro g g' h hwf
    simp only [buildCombos, Option.bind_eq_bind, Option.bind_eq_some] at h
    rcases h with ⟨cands, hcands, g2, hg2, hrest⟩
    have hwf1 : GraphWF (addNode g (i, cc, inv, cm)) := addNode_wf hwf
    have hok : ∀ p ∈ cands,
        p.2 = transition_cost (i, cc, inv, cm).2.2.2 p.1.2.2.2 :=
      fun p hp => (nextNodes_shape hcands p hp).2
    obtain ⟨hwf2, hmem2⟩ := insertEdgesFor_spec hg2 hwf1 hok
    obtain ⟨hwf', hmem'⟩ := ih hrest hwf2
    refine ⟨hwf', ?_⟩
    intro e
    rw [hmem' e, hmem2 e, addNode_edges]
    constructor
    · rintro ((he | ⟨v, w, rfl, hpick⟩) | ⟨m, hm, cands', h1, v, w, rfl, h2⟩)
      · exact Or.inl he
      · exact Or.inr ⟨cm, by simp, cands, hcands, v, w, rfl, hpick⟩
      · exact Or.inr ⟨m, List.mem_cons_of_mem _ hm, cands', h1, v, w, rfl, h2⟩
    · rintro (he | ⟨m, hm, cands', h1, v, w, rfl, h2⟩)
      · exact Or.inl (Or.inl he)
      · rcases List.mem_cons.mp hm with rfl | hm2
        · rw [hcands] at h1
          obtain rfl := Option.some.inj h1
          exact Or.inl (Or.inr ⟨v, w, rfl, h2⟩)
        · exact Or.inr ⟨m, hm2, cands', h1, v, w, rfl, h2⟩

theorem buildInversions_spec {mr : Int × Int} {i : Nat} {cc nc : String}
    {tnc : List String} {invs : List String} :
    ∀ {g g' : Graph},
      buildInversions mr i cc nc tnc invs g = some g' →
      GraphWF g →
      GraphWF g' ∧
      ∀ e, e ∈ g'.edges ↔ e ∈ g.edges ∨ ∃ inv ∈ invs, ∃ combos,
        find_all_triads_in_range (pySplit inv) mr = some combos ∧
        ∃ m ∈ combos, ∃ cands, nextNodes mr i nc m tnc = some cands ∧
        ∃ v w, e = ((i, cc, inv, m), v, w) ∧ EdgePick (cc == nc) cands v w := by
  induction invs with
  | nil =>
    intro g g' h hwf
    simp only [buildInversions, Option.some.injEq] at h
    subst h
    exact ⟨hwf, by simp⟩
  | cons inv rest ih =>
    intro g g' h hwf
    simp only [buildInversions, Option.bind_eq_bind, Option.bind_eq_some] at h
    rcases h with ⟨combos, hcombos, g2, hg2, hrest⟩
    obtain ⟨hwf2, hmem2⟩ := buildCombos_spec hg2 hwf
    obtain ⟨hwf', hmem'⟩ := ih hrest hwf2
    refine ⟨hwf', ?_⟩
    intro e
    rw [hmem' e, hmem2 e]
    constructor
    · rintro ((he | hnew) | ⟨inv', hinv', rest'⟩)
      · exact Or.inl he
      · exact Or.inr ⟨inv, by simp, combos, hcombos, hnew⟩
      · exact Or.inr ⟨inv', List.mem_cons_of_mem _ hinv', rest'⟩
    · rintro (he | ⟨inv', hinv', combos', h1, hnew⟩)
      · exact Or.inl (Or.inl he)
      · rcases List.mem_cons.mp hinv' with rfl | hinv2
        · rw [hcombos] at h1
          obtain rfl := Option.some.inj h1
          exact Or.inl (Or.inr hnew)
        · exact Or.inr ⟨inv', hinv2, combos', h1, hnew⟩

/-- The edges contributed by the chord pair at positions `(i, i + 1)`. -/
def PairEdgeAt (chords : List String) (mr : Int × Int)
    (triads : String → List String) (i : Nat) (e : Node × Node × Nat) : Prop :=
  ∃ inv ∈ triads (chords.getD i ""), ∃ combos,
    find_all_triads_in_range (pySplit inv) mr = some combos ∧
    ∃ m ∈ combos, ∃ cands,
      nextNodes mr i (chords.getD (i + 1) "") m (triads (chords.getD (i + 1) "")) = some cands ∧
      ∃ v w, e = ((i, chords.getD i "", inv, m), v, w) ∧
        EdgePick (chords.getD i "" == chords.getD (i + 1) "") cands v w

theorem buildPairs_spec {chords : List String} {mr : Int × Int}
    {triads : String → List String} {is : List Nat} :
    ∀ {g g' : Graph},
      buildPairs chords mr triads is g = some g' →
      GraphWF g →
      GraphWF g' ∧
      ∀ e, e ∈ g'.edges ↔ e ∈ g.edges ∨ ∃ i ∈ is, PairEdgeAt chords mr triads i e := by
  induction is with
  | nil =>
    intro g g' h hwf
    simp only [buildPairs, Option.some.injEq] at h
    subst h
    exact ⟨hwf, by simp⟩
  | cons i rest ih =>
    intro g g' h hwf
    simp only [buildPairs, Option.bind_eq_bind, Option.bind_eq_some] at h
    rcases h with ⟨g2, hg2, hrest⟩
    obtain ⟨hwf2, hmem2⟩ := buildInversions_spec hg2 hwf
    obtain ⟨hwf', hmem'⟩ := ih hrest hwf2
    refine ⟨hwf', ?_⟩
    intro e
    rw [hmem' e, hmem2 e]
    constructor
    · rintro ((he | hnew) | ⟨i', hi', rest'⟩)
      · exact Or.inl he
      · exact Or.inr ⟨i, by simp, hnew⟩
      · exact Or.inr ⟨i', List.mem_cons_of_mem _ hi', rest'⟩
    · rintro (he | ⟨i', hi', hnew⟩)
      · exact Or.inl (Or.inl he)
      · rcases List.mem_cons.mp hi' with rfl | hi2
        · exact Or.inl (Or.inr hnew)
        · exact Or.inr ⟨i', hi2, hnew⟩

/-- Full characterization of the edges of a built graph: exactly the
edges inserted for some consecutive chord pair, together with the
structural invariants. -/
theorem build_edge_char {chords : List String} {mr : Int × Int}
    {triads : String → List String} {g : Graph}
    (h : build_voice_leading_graph chords mr triads = some g) :
    GraphWF g ∧
    ∀ e, e ∈ g.edges ↔ ∃ i, i < chords.length - 1 ∧ PairEdgeAt chords mr triads i e := by
  obtain ⟨hwf, hmem⟩ := buildPairs_spec h emptyGraph_wf
  refine ⟨hwf, ?_⟩
  intro e
  rw [hmem e]
  constructor
  · rintro (he | ⟨i, hi, hnew⟩)
    · cases he
    · exact ⟨i, List.mem_range.mp hi, hnew⟩
  · rintro ⟨i, hi, hnew⟩
    exact Or.inr ⟨i, List.mem_range.mpr hi, hnew⟩

/-! ### Claim C6: layered edges with transition-cost weights -/

/-- Shape of every built edge: target one layer above the source, weight
equal to the endpoint transition cost. -/
theorem build_edges_shape {chords : List String} {mr : Int × Int}
    {triads : String → List String} {g : Graph}
    (h : build_voice_leading_graph chords mr triads = some g) :
    ∀ e ∈ g.edges, e.2.1.1 = e.1.1 + 1 ∧
      e.2.2 = transition_cost e.1.2.2.2 e.2.1.2.2.2 := by
  obtain ⟨hwf, hmem⟩ := build_edge_char h
  intro e he
  obtain ⟨i, hi, inv, hinv, combos, hcombos, m, hm, cands, hcands, v, w, rfl, hpick⟩ :=
    (hmem e).mp he
  have hvc : (v, w) ∈ cands := by
    rcases hpick with ⟨_, hsel⟩ | ⟨_, hmemc⟩
    · exact selectRepeated_mem hsel
    · exact hmemc
  exact ⟨(nextNodes_shape hcands (v, w) hvc).1, hwf.2.2.2 _ he⟩

/-- C6: every edge of a graph returned by `build_voice_leading_graph`
goes from a node at some position `i` to a node at position `i + 1`
(hence the graph is layered and acyclic), and its weight equals the sum
over tuple positions of the absolute pitch differences of the two
endpoint voicings — a non-negative integer (it is a natural number). -/
theorem C6_spec {chords : List String} {mr : Int × Int}
    {triads : String → List String} {g : Graph}
    (h : build_voice_leading_graph chords mr triads = some g) :
    ∀ e ∈ g.edges, e.2.1.1 = e.1.1 + 1 ∧
      e.2.2 = transition_cost e.1.2.2.2 e.2.1.2.2.2 :=
  build_edges_shape h

/-- Triads mapping of a small two-chord example. -/
def exTriadsCG : String → List String :=
  fun c => if c = "C" then ["C E G"] else if c = "G" then ["G B D"] else []

/-- The graph built for `["C", "G"]` over range `(55, 70)`. -/
def exGraphCG : Graph :=
  ⟨[(0, "C", "C E G", [60, 64, 67]), (1, "G", "G B D", [55, 59, 62])],
   [((0, "C", "C E G", [60, 64, 67]), (1, "G", "G B D", [55, 59, 62]), 15)]⟩

def exEdgeCG : Node × Node × Nat :=
  ((0, "C", "C E G", [60, 64, 67]), (1, "G", "G B D", [55, 59, 62]), 15)

theorem C6_witness :
    exEdgeCG.2.1.1 = exEdgeCG.1.1 + 1 ∧
    exEdgeCG.2.2 = transition_cost exEdgeCG.1.2.2.2 exEdgeCG.2.1.2.2.2 :=
  @C6_spec ["C", "G"] (55, 70) exTriadsCG exGraphCG (by decide)
    exEdgeCG (by decide)

/-! ### Claim C4: the repeated-chord edge-selection rule -/

/-- The outgoing `(target, weight)` pairs of node `u`. -/
def edgesFrom (g : Graph) (u : Node) : List (Node × Nat) :=
  g.edges.filterMap fun e => if e.1 = u then some (e.2.1, e.2.2) else none

theorem filterMap_single {l : List (Node × Node × Nat)} {u : Node} {q : Node × Nat}
    (hnodup : (l.map fun e => (e.1, e.2.1)).Nodup)
    (hmemq : (u, q.1, q.2) ∈ l)
    (huniq : ∀ e ∈ l, e.1 = u → (e.2.1, e.2.2) = q) :
    l.filterMap (fun e => if e.1 = u then some (e.2.1, e.2.2) else none) = [q] := by
  induction l with
  | nil => cases hmemq
  | cons a t ih =>
    rw [List.map_cons] at hnodup
    have hnd := List.nodup_cons.mp hnodup
    by_cases ha : a.1 = u
    · have haq : (a.2.1, a.2.2) = q := huniq a (by simp) ha
      rw [List.filterMap_cons, if_pos ha, haq]
      have htail : t.filterMap
          (fun e => if e.1 = u then some (e.2.1, e.2.2) else none) = [] := by
        apply List.filterMap_eq_nil_iff.mpr
        intro e he
        by_cases hc : e.1 = u
        · exfalso
          have heq : (e.2.1, e.2.2) = q := huniq e (List.mem_cons_of_mem _ he) hc
          have hkey : (e.1, e.2.1) = (a.1, a.2.1) := by
            rw [ha, hc, (Prod.ext_iff.mp haq).1, (Prod.ext_iff.mp heq).1]
          exact hnd.1 (hkey ▸ List.mem_map_of_mem _ he)
        · rw [if_neg hc]
      rw [htail]
    · have hmem2 : (u, q.1, q.2) ∈ t := by
        rcases List.mem_cons.mp hmemq with heq | h2
        · exact absurd (by rw [← heq]) ha
        · exact h2
      rw [List.filterMap_cons, if_neg ha]
      exact ih hnd.2 hmem2 fun e he hc => huniq e (List.mem_cons_of_mem _ he) hc

/-- C4: for a repeated chord pair at `(i, i + 1)` and a source node with
a non-empty candidate list, exactly one outgoing edge is inserted; if
some candidate has strictly positive cost the edge has the minimal
strictly positive candidate cost (never a zero-cost edge), and if all
candidates have zero cost a zero-cost edge is still inserted, so the
source is not left without an outgoing edge. -/
theorem C4_spec {chords : List String} {mr : Int × Int}
    {triads : String → List String} {g : Graph}
    (hg : build_voice_leading_graph chords mr triads = some g)
    {i : Nat} (hi : i < chords.length - 1)
    (hsame : chords.getD i "" = chords.getD (i + 1) "")
    {inv : String} (hinv : inv ∈ triads (chords.getD i ""))
    {combos : List (List Int)}
    (hcombos : find_all_triads_in_range (pySplit inv) mr = some combos)
    {m : List Int} (hm : m ∈ combos)
    {cands : List (Node × Nat)}
    (hcands : nextNodes mr i (chords.getD (i + 1) "") m
        (triads (chords.getD (i + 1) "")) = some cands)
    (hne : cands ≠ []) :
    ∃ v w, edgesFrom g (i, chords.getD i "", inv, m) = [(v, w)] ∧
      (v, w) ∈ cands ∧
      ((∃ p ∈ cands, 0 < p.2) → 0 < w ∧ ∀ p ∈ cands, 0 < p.2 → w ≤ p.2) ∧
      ((∀ p ∈ cands, p.2 = 0) → w = 0) := by
  obtain ⟨hwf, hmem⟩ := build_edge_char hg
  obtain ⟨q, hq⟩ := selectRepeated_isSome hne
  have hbeq : (chords.getD i "" == chords.getD (i + 1) "") = true :=
    beq_iff_eq.mpr hsame
  have hqeta : selectRepeated cands = some (q.1, q.2) := hq
  have hmemq : ((i, chords.getD i "", inv, m), q.1, q.2) ∈ g.edges := by
    apply (hmem _).mpr
    exact ⟨i, hi, inv, hinv, combos, hcombos, m, hm, cands, hcands, q.1, q.2,
      rfl, Or.inl ⟨hbeq, hqeta⟩⟩
  have huniq : ∀ e ∈ g.edges, e.1 = (i, chords.getD i "", inv, m) →
      (e.2.1, e.2.2) = q := by
    intro e he he1
    obtain ⟨i', hi', inv', hinv', combos', hcombos', m', hm', cands', hcands',
      v, w, heq, hpick⟩ := (hmem e).mp he
    rw [heq] at he1 ⊢
    simp only [Prod.mk.injEq] at he1
    obtain ⟨rfl, _, rfl, rfl⟩ := he1
    rw [hcombos] at hcombos'
    obtain rfl := Option.some.inj hcombos'
    rw [hcands] at hcands'
    obtain rfl := Option.some.inj hcands'
    rcases hpick with ⟨_, hsel⟩ | ⟨hfalse, _⟩
    · rw [hq] at hsel
      exact (Option.some.inj hsel).symm
    · rw [hbeq] at hfalse
      cases hfalse
  refine ⟨q.1, q.2, ?_, selectRepeated_mem hq, ?_, ?_⟩
  · exact filterMap_single hwf.2.1 hmemq huniq
  · intro hex
    exact selectRepeated_pos hq hex
  · intro hall
    exact hall q (selectRepeated_mem hq)

/-- Triads mapping for the repeated-chord example. -/
def exTriadsCC : String → List String :=
  fun c => if c = "C" then ["C E G", "E G C"] else []

/-- The graph built for the repeated progression `["C", "C"]` over range
`(50, 74)`. -/
def exGraphCC : Graph :=
  ⟨[(0, "C", "C E G", [60, 64, 67]), (1, "C", "E G C", [64, 67, 72]),
    (0, "C", "E G C", [52, 55, 60]), (1, "C", "C E G", [60, 64, 67]),
    (0, "C", "E G C", [64, 67, 72])],
   [((0, "C", "C E G", [60, 64, 67]), (1, "C", "E G C", [64, 67, 72]), 12),
    ((0, "C", "E G C", [52, 55, 60]), (1, "C", "C E G", [60, 64, 67]), 24),
    ((0, "C", "E G C", [64, 67, 72]), (1, "C", "C E G", [60, 64, 67]), 12)]⟩

/-- The candidate list of the source node `(0, "C", "C E G", [60, 64, 67])`
in the repeated-chord example. -/
def exCandsCC : List (Node × Nat) :=
  [((1, "C", "C E G", [60, 64, 67]), 0), ((1, "C", "E G C", [52, 55, 60]), 24),
   ((1, "C", "E G C", [64, 67, 72]), 12)]

theorem C4_witness :
    ∃ v w, edgesFrom exGraphCC (0, "C", "C E G", [60, 64, 67]) = [(v, w)] ∧
      (v, w) ∈ exCandsCC ∧
      ((∃ p ∈ exCandsCC, 0 < p.2) → 0 < w ∧ ∀ p ∈ exCandsCC, 0 < p.2 → w ≤ p.2) ∧
      ((∀ p ∈ exCandsCC, p.2 = 0) → w = 0) :=
  @C4_spec ["C", "C"] (50, 74) exTriadsCC exGraphCC (by decide) 0
    (by decide) rfl "C E G" (by decide) [[60, 64, 67]] (by decide)
    [60, 64, 67] (by decide) exCandsCC (by decide) (by decide)

/-! ## graph_utils.find_optimal_voice_leading

`nx.single_source_dijkstra(graph, s)` is a library call; it is modelled
by its specification: for each target, a minimum-cost walk from `s`
(edge weights are non-negative naturals) together with its cost, `none`
when the target is unreachable.  Walks are enumerated up to
`g.nodes.length` edges, which covers every walk of the layered graphs
produced by the builder, since positions strictly increase along
edges. -/

/-- Weight of the `(u, v)` edge, if present. -/
def edgeWeight (g : Graph) (u v : Node) : Option Nat :=
  (g.edges.find? fun e => decide (e.1 = u ∧ e.2.1 = v)).map fun e => e.2.2

/-- Total weight of a walk; `none` if the list is empty or some step is
not an edge of `g`. -/
def walkCost (g : Graph) : List Node → Option Nat
  | [] => none
  | [_] => some 0
  | u :: v :: rest => do
      let w ← edgeWeight g u v
      let c ← walkCost g (v :: rest)
      return w + c

/-- Successor nodes of `u`. -/
def successors (g : Graph) (u : Node) : List Node :=
  g.edges.filterMap fun e => if e.1 = u then some e.2.1 else none

/-- All walks starting at `u` with at most `k` edges. -/
def walksLe (g : Graph) : Nat → Node → List (List Node)
  | 0, u => [[u]]
  | k + 1, u =>
      [u] :: (successors g u).flatMap fun v => (walksLe g k v).map fun wk => u :: wk

/-- One step of the first-found minimum selection. -/
def minStep (best : Option (Nat × List Node)) (p : Nat × List Node) :
    Option (Nat × List Node) :=
  match best with
  | none => some p
  | some b => if p.1 < b.1 then some p else some b

/-- First-found minimum-cost entry of a list of `(cost, walk)` pairs. -/
def selectMin (l : List (Nat × List Node)) : Option (Nat × List Node) :=
  l.foldl minStep none

/-- Model of `nx.single_source_dijkstra(graph, s)` queried at target
`t`: minimal cost and a minimal-cost walk from `s` to `t`, or `none`
when `t` is unreachable. -/
def dijkstraPair (g : Graph) (s t : Node) : Option (Nat × List Node) :=
  selectMin ((walksLe g g.nodes.length s).filterMap fun wk =>
    if wk.getLast? = some t then (walkCost g wk).map fun c => (c, wk) else none)

/-- `[... for node in graph.nodes() if node[0] == len(chords) - 1 and
node[1] == chords[-1]]`: the qualifying final-layer nodes. -/
def targetNodes (g : Graph) (chords : List String) (lastChord : String) : List Node :=
  g.nodes.filter fun n => decide (n.1 = chords.length - 1 ∧ n.2.1 = lastChord)

/-- The update of `(best_cost, best_path)` for one target: skipped when
the target is unreachable, replaced when strictly cheaper. -/
def targetStep (g : Graph) (s : Node) (best : Option (Nat × List Node)) (t : Node) :
    Option (Nat × List Node) :=
  match dijkstraPair g s t with
  | none => best
  | some (c, p) =>
    match best with
    | none => some (c, p)
    | some b => if c < b.1 then some (c, p) else some b

/-- One iteration of the `for start_chord in start_chords` loop: `none`
models `nx.NodeNotFound` for a start node missing from the graph and the
`IndexError` of `chords[-1]` on an empty progression. -/
def startStep (g : Graph) (chords : List String)
    (best : Option (Nat × List Node)) (s : Node) :
    Option (Option (Nat × List Node)) :=
  if s ∈ g.nodes then
    (chords.getLast?).map fun lastChord =>
      (targetNodes g chords lastChord).foldl (targetStep g s) best
  else none

/-- `find_optimal_voice_leading(graph, start_chords, chords)` from
`graph_utils.py`. -/
def find_optimal_voice_leading (g : Graph) (start_chords : List Node)
    (chords : List String) : Option (List (String × String × List Int)) := do
  let best ← start_chords.foldlM (startStep g chords) none
  match best with
  | none => return []
  | some b => return b.2.map fun n => (n.2.1, n.2.2.1, n.2.2.2)

/-! ### Walk lemmas -/

theorem edgeWeight_some {g : Graph} {u v : Node} {w : Nat}
    (h : edgeWeight g u v = some w) : (u, v, w) ∈ g.edges := by
  unfold edgeWeight at h
  cases hf : g.edges.find? fun e => decide (e.1 = u ∧ e.2.1 = v) with
  | none => rw [hf] at h; cases h
  | some e =>
    rw [hf] at h
    obtain rfl := Option.some.inj h
    have hp := List.find?_some hf
    simp only [decide_eq_true_eq] at hp
    have hmem := List.mem_of_find?_eq_some hf
    have : (u, v, e.2.2) = e := by rw [← hp.1, ← hp.2]
    rw [this]
    exact hmem

theorem edgeWeight_isSome_of_mem {g : Graph} {u v : Node} {w : Nat}
    (h : (u, v, w) ∈ g.edges) : ∃ w', edgeWeight g u v = some w' := by
  unfold edgeWeight
  cases hf : g.edges.find? fun e => decide (e.1 = u ∧ e.2.1 = v) with
  | none =>
    rw [List.find?_eq_none] at hf
    exact absurd (by simp : (decide (((u, v, w) : Node × Node × Nat).1 = u ∧
      ((u, v, w) : Node × Node × Nat).2.1 = v)) = true) (by simpa using hf _ h)
  | some e => exact ⟨e.2.2, rfl⟩

/-- Every enumerated walk starts at `u` and has a defined cost. -/
theorem walksLe_sound {g : Graph} :
    ∀ {k : Nat} {u : Node} {wk : List Node}, wk ∈ walksLe g k u →
      wk.head? = some u ∧ ∃ c, walkCost g wk = some c := by
  intro k
  induction k with
  | zero =>
    intro u wk h
    simp only [walksLe, List.mem_singleton] at h
    subst h
    exact ⟨rfl, 0, rfl⟩
  | succ n ih =>
    intro u wk h
    simp only [walksLe, List.mem_cons, List.mem_flatMap, List.mem_map] at h
    rcases h with rfl | ⟨v, hv, wk', hwk', rfl⟩
    · exact ⟨rfl, 0, rfl⟩
    · obtain ⟨hhead, c, hc⟩ := ih hwk'
      cases wk' with
      | nil => cases hhead
      | cons x rest =>
        have hxv : x = v := by simpa using hhead
        obtain ⟨e, he, heq⟩ : ∃ e ∈ g.edges, e.1 = u ∧ e.2.1 = x := by
          unfold successors at hv
          rcases List.mem_filterMap.mp hv with ⟨e, he, hcond⟩
          by_cases hc1 : e.1 = u
          · rw [if_pos hc1] at hcond
            exact ⟨e, he, hc1, by rw [hxv]; exact Option.some.inj hcond⟩
          · rw [if_neg hc1] at hcond; cases hcond
        have hmem : (u, x, e.2.2) ∈ g.edges := by
          have hx : (u, x, e.2.2) = e := by rw [← heq.1, ← heq.2]
          rw [hx]; exact he
        obtain ⟨w', hw'⟩ := edgeWeight_isSome_of_mem hmem
        refine ⟨rfl, w' + c, ?_⟩
        show walkCost g (u :: x :: rest) = some (w' + c)
        unfold walkCost
        rw [hw', hc]
        rfl

/-- Every walk with a defined cost and at most `k` edges is enumerated. -/
theorem walksLe_complete {g : Graph} :
    ∀ {k : Nat} {u : Node} {rest : List Node},
      (∃ c, walkCost g (u :: rest) = some c) → rest.length ≤ k →
      (u :: rest) ∈ walksLe g k u := by
  intro k
  induction k with
  | zero =>
    intro u rest _ hlen
    rw [List.length_eq_zero.mp (Nat.le_zero.mp hlen)]
    simp [walksLe]
  | succ n ih =>
    intro u rest hcost hlen
    cases rest with
    | nil => simp [walksLe]
    | cons v t =>
      obtain ⟨c, hc⟩ := hcost
      have hsplit : ∃ w c', edgeWeight g u v = some w ∧
          walkCost g (v :: t) = some c' := by
        unfold walkCost at hc
        cases hw : edgeWeight g u v with
        | none => rw [hw] at hc; cases hc
        | some w =>
          rw [hw] at hc
          cases hc2 : walkCost g (v :: t) with
          | none => rw [hc2] at hc; cases hc
          | some c' => exact ⟨w, c', rfl, rfl⟩
      obtain ⟨w, c', hw, hc'⟩ := hsplit
      have hv : v ∈ successors g u := by
        unfold successors
        have hmem := edgeWeight_some hw
        exact List.mem_filterMap.mpr ⟨(u, v, w), hmem, by rw [if_pos rfl]⟩
      have hrec : (v :: t) ∈ walksLe g n v :=
        ih ⟨c', hc'⟩ (by simpa using hlen)
      simp only [walksLe, List.mem_cons, List.mem_flatMap, List.mem_map]
      exact Or.inr ⟨v, hv, v :: t, hrec, rfl⟩

/-- `walksLe_complete` phrased on `head?`. -/
theorem walksLe_complete_head {g : Graph} {k : Nat} {u : Node} {wk : List Node}
    (hhead : wk.head? = some u) (hcost : ∃ c, walkCost g wk = some c)
    (hlen : wk.length ≤ k + 1) : wk ∈ walksLe g k u := by
  cases wk with
  | nil => cases hhead
  | cons x rest =>
    have hxu : x = u := by simpa using hhead
    rw [hxu] at hcost ⊢
    exact walksLe_complete hcost (by simpa using hlen)

/-! ### Minimum selection and the dijkstra model -/

theorem minStep_none_eq (p : Nat × List Node) : minStep none p = some p := rfl

theorem minStep_some_eq (b p : Nat × List Node) :
    minStep (some b) p = if p.1 < b.1 then some p else some b := rfl

theorem minStep_isSome (b0 : Option (Nat × List Node)) (p : Nat × List Node) :
    ∃ q, minStep b0 p = some q := by
  cases b0 with
  | none => exact ⟨p, rfl⟩
  | some b =>
    rw [minStep_some_eq]
    by_cases h : p.1 < b.1
    · exact ⟨p, by rw [if_pos h]⟩
    · exact ⟨b, by rw [if_neg h]⟩

theorem foldl_minStep_spec :
    ∀ (l : List (Nat × List Node)) (b0 : Option (Nat × List Node)),
      (l.foldl minStep b0 = none → b0 = none ∧ l = []) ∧
      ∀ b, l.foldl minStep b0 = some b →
        (b0 = some b ∨ b ∈ l) ∧ (∀ p ∈ l, b.1 ≤ p.1) ∧
        ∀ c, b0 = some c → b.1 ≤ c.1 := by
  intro l
  induction l with
  | nil =>
    intro b0
    constructor
    · intro h
      exact ⟨h, rfl⟩
    · intro b h
      refine ⟨Or.inl h, by simp, fun c hc => ?_⟩
      exact le_of_eq (congrArg Prod.fst (Option.some.inj (h.symm.trans hc)))
  | cons p rest ih =>
    intro b0
    have hfold : (p :: rest).foldl minStep b0 = rest.foldl minStep (minStep b0 p) := rfl
    constructor
    · intro h
      rw [hfold] at h
      obtain ⟨q, hq⟩ := minStep_isSome b0 p
      obtain ⟨h1, _⟩ := (ih (minStep b0 p)).1 h
      rw [hq] at h1
      cases h1
    · intro b h
      rw [hfold] at h
      obtain ⟨hsrc, hle, hinit⟩ := (ih (minStep b0 p)).2 b h
      cases b0 with
      | none =>
        refine ⟨?_, ?_, ?_⟩
        · rcases hsrc with h1 | h1
          · rw [minStep_none_eq] at h1
            exact Or.inr (by rw [← Option.some.inj h1]; simp)
          · exact Or.inr (List.mem_cons_of_mem _ h1)
        · intro p' hp'
          rcases List.mem_cons.mp hp' with rfl | hp2
          · exact hinit p' (minStep_none_eq p')
          · exact hle p' hp2
        · intro c hc
          cases hc
      | some b1 =>
        by_cases hlt : p.1 < b1.1
        · have hstep : minStep (some b1) p = some p := by
            rw [minStep_some_eq, if_pos hlt]
          have hbp : b.1 ≤ p.1 := hinit p hstep
          refine ⟨?_, ?_, ?_⟩
          · rcases hsrc with h1 | h1
            · rw [hstep] at h1
              exact Or.inr (by rw [← Option.some.inj h1]; simp)
            · exact Or.inr (List.mem_cons_of_mem _ h1)
          · intro p' hp'
            rcases List.mem_cons.mp hp' with rfl | hp2
            · exact hbp
            · exact hle p' hp2
          · intro c hc
            obtain rfl := Option.some.inj hc
            exact le_trans hbp (le_of_lt hlt)
        · have hstep : minStep (some b1) p = some b1 := by
            rw [minStep_some_eq, if_neg hlt]
          have hbb1 : b.1 ≤ b1.1 := hinit b1 hstep
          refine ⟨?_, ?_, ?_⟩
          · rcases hsrc with h1 | h1
            · rw [hstep] at h1
              exact Or.inl (by rw [← Option.some.inj h1])
            · exact Or.inr (List.mem_cons_of_mem _ h1)
          · intro p' hp'
            rcases List.mem_cons.mp hp' with rfl | hp2
            · exact le_trans hbb1 (Nat.le_of_not_lt hlt)
            · exact hle p' hp2
          · intro c hc
            obtain rfl := Option.some.inj hc
            exact hbb1

theorem selectMin_none {l : List (Nat × List Node)} (h : selectMin l = none) :
    l = [] :=
  ((foldl_minStep_spec l none).1 h).2

theorem selectMin_some {l : List (Nat × List Node)} {b : Nat × List Node}
    (h : selectMin l = some b) : b ∈ l ∧ ∀ p ∈ l, b.1 ≤ p.1 := by
  obtain ⟨hsrc, hle, _⟩ := (foldl_minStep_spec l none).2 b h
  rcases hsrc with h1 | h1
  · cases h1
  · exact ⟨h1, hle⟩

theorem dijkstraPair_some {g : Graph} {s t : Node} {c : Nat} {p : List Node}
    (h : dijkstraPair g s t = some (c, p)) :
    p.head? = some s ∧ p.getLast? = some t ∧ walkCost g p = some c ∧
    ∀ wk c', wk.head? = some s → wk.getLast? = some t → walkCost g wk = some c' →
      wk.length ≤ g.nodes.length + 1 → c ≤ c' := by
  obtain ⟨hmem, hle⟩ := selectMin_some h
  rcases List.mem_filterMap.mp hmem with ⟨wk, hwk, hcond⟩
  by_cases hlast : wk.getLast? = some t
  · rw [if_pos hlast] at hcond
    cases hcw : walkCost g wk with
    | none => rw [hcw] at hcond; cases hcond
    | some c0 =>
      rw [hcw] at hcond
      simp only [Option.map_some', Option.some.injEq, Prod.mk.injEq] at hcond
      obtain ⟨rfl, rfl⟩ := hcond
      obtain ⟨hhead, _⟩ := walksLe_sound hwk
      refine ⟨hhead, hlast, hcw, ?_⟩
      intro wk' c' hh hl hcw' hlen
      have hwk' : wk' ∈ walksLe g g.nodes.length s :=
        walksLe_complete_head hh ⟨c', hcw'⟩ hlen
      have hmem' : (c', wk') ∈ (walksLe g g.nodes.length s).filterMap fun wk =>
          if wk.getLast? = some t then (walkCost g wk).map fun c => (c, wk)
          else none :=
        List.mem_filterMap.mpr ⟨wk', hwk', by rw [if_pos hl, hcw']; rfl⟩
      exact hle (c', wk') hmem'
  · rw [if_neg hlast] at hcond
    cases hcond

theorem dijkstraPair_none {g : Graph} {s t : Node} (h : dijkstraPair g s t = none) :
    ∀ wk c, wk.head? = some s → wk.getLast? = some t → walkCost g wk = some c →
      wk.length ≤ g.nodes.length + 1 → False := by
  intro wk c hh hl hcw hlen
  have hnil := selectMin_none h
  have hwk := walksLe_complete_head hh ⟨c, hcw⟩ hlen
  have hmem : (c, wk) ∈ (walksLe g g.nodes.length s).filterMap fun wk =>
      if wk.getLast? = some t then (walkCost g wk).map fun c => (c, wk)
      else none :=
    List.mem_filterMap.mpr ⟨wk, hwk, by rw [if_pos hl, hcw]; rfl⟩
  rw [hnil] at hmem
  cases hmem

theorem dijkstraPair_isSome_of_walk {g : Graph} {s t : Node} {wk : List Node}
    {c : Nat} (hh : wk.head? = some s) (hl : wk.getLast? = some t)
    (hcw : walkCost g wk = some c) (hlen : wk.length ≤ g.nodes.length + 1) :
    ∃ r, dijkstraPair g s t = some r := by
  cases hd : dijkstraPair g s t with
  | none => exact (dijkstraPair_none hd wk c hh hl hcw hlen).elim
  | some r => exact ⟨r, rfl⟩

theorem foldl_targetStep_spec (g : Graph) (s : Node) :
    ∀ (ts : List Node) (b0 : Option (Nat × List Node)),
      (ts.foldl (targetStep g s) b0 = none →
        b0 = none ∧ ∀ t ∈ ts, dijkstraPair g s t = none) ∧
      ∀ b, ts.foldl (targetStep g s) b0 = some b →
        (b0 = some b ∨ ∃ t ∈ ts, dijkstraPair g s t = some b) ∧
        (∀ c, b0 = some c → b.1 ≤ c.1) ∧
        ∀ t ∈ ts, ∀ c p, dijkstraPair g s t = some (c, p) → b.1 ≤ c := by
  intro ts
  induction ts with
  | nil =>
    intro b0
    constructor
    · intro h
      exact ⟨h, by simp⟩
    · intro b h
      refine ⟨Or.inl h, fun c hc => ?_, by simp⟩
      exact le_of_eq (congrArg Prod.fst (Option.some.inj (h.symm.trans hc)))
  | cons t rest ih =>
    intro b0
    have hfold : (t :: rest).foldl (targetStep g s) b0
        = rest.foldl (targetStep g s) (targetStep g s b0 t) := rfl
    cases hd : dijkstraPair g s t with
    | none =>
      have hstep : targetStep g s b0 t = b0 := by unfold targetStep; rw [hd]
      constructor
      · intro h
        rw [hfold, hstep] at h
        obtain ⟨h1, h2⟩ := (ih b0).1 h
        refine ⟨h1, fun t' ht' => ?_⟩
        rcases List.mem_cons.mp ht' with rfl | ht2
        · exact hd
        · exact h2 t' ht2
      · intro b h
        rw [hfold, hstep] at h
        obtain ⟨hsrc, hinit, hmin⟩ := (ih b0).2 b h
        refine ⟨?_, hinit, ?_⟩
        · rcases hsrc with h1 | ⟨t', ht', h2⟩
          · exact Or.inl h1
          · exact Or.inr ⟨t', List.mem_cons_of_mem _ ht', h2⟩
        · intro t' ht' c p hdp
          rcases List.mem_cons.mp ht' with rfl | ht2
          · rw [hd] at hdp; cases hdp
          · exact hmin t' ht2 c p hdp
    | some cp =>
      obtain ⟨c0, p0⟩ := cp
      have hstep : ∃ b1, targetStep g s b0 t = some b1 ∧ b1.1 ≤ c0 ∧
          (b1 = (c0, p0) ∨ b0 = some b1) ∧
          ∀ c, b0 = some c → b1.1 ≤ c.1 := by
        unfold targetStep
        rw [hd]
        cases b0 with
        | none => exact ⟨(c0, p0), rfl, le_refl _, Or.inl rfl, by simp⟩
        | some b' =>
          by_cases hlt : c0 < b'.1
          · refine ⟨(c0, p0), ?_, le_refl _, Or.inl rfl, ?_⟩
            · show (if c0 < b'.1 then some (c0, p0) else some b') = some (c0, p0)
              rw [if_pos hlt]
            · intro c hc
              obtain rfl := Option.some.inj hc
              exact le_of_lt hlt
          · refine ⟨b', ?_, Nat.le_of_not_lt hlt, Or.inr rfl, ?_⟩
            · show (if c0 < b'.1 then some (c0, p0) else some b') = some b'
              rw [if_neg hlt]
            · intro c hc
              obtain rfl := Option.some.inj hc
              exact le_refl _
      obtain ⟨b1, hb1, hb1le, hb1src, hb1init⟩ := hstep
      constructor
      · intro h
        rw [hfold, hb1] at h
        obtain ⟨h1, _⟩ := (ih (some b1)).1 h
        cases h1
      · intro b h
        rw [hfold, hb1] at h
        obtain ⟨hsrc, hinit, hmin⟩ := (ih (some b1)).2 b h
        have hble : b.1 ≤ b1.1 := hinit b1 rfl
        refine ⟨?_, ?_, ?_⟩
        · rcases hsrc with h1 | ⟨t', ht', h2⟩
          · obtain rfl := Option.some.inj h1
            rcases hb1src with h3 | h3
            · exact Or.inr ⟨t, by simp, by rw [hd, h3]⟩
            · exact Or.inl h3
          · exact Or.inr ⟨t', List.mem_cons_of_mem _ ht', h2⟩
        · intro c hc
          exact le_trans hble (hb1init c hc)
        · intro t' ht' c p hdp
          rcases List.mem_cons.mp ht' with rfl | ht2
          · rw [hd] at hdp
            have hcc : c = c0 := ((Prod.ext_iff.mp (Option.some.inj hdp)).1).symm
            rw [hcc]
            exact le_trans hble hb1le
          · exact hmin t' ht2 c p hdp

theorem foldlM_startStep_spec (g : Graph) (chords : List String) (lc : String)
    (hlc : chords.getLast? = some lc) :
    ∀ (ss : List Node), (∀ s ∈ ss, s ∈ g.nodes) →
      ∀ (b0 : Option (Nat × List Node)),
      (∃ r, ss.foldlM (startStep g chords) b0 = some r) ∧
      ∀ r, ss.foldlM (startStep g chords) b0 = some r →
        (r = none → b0 = none ∧ ∀ s ∈ ss, ∀ t ∈ targetNodes g chords lc,
          dijkstraPair g s t = none) ∧
        ∀ b, r = some b →
          (b0 = some b ∨ ∃ s ∈ ss, ∃ t ∈ targetNodes g chords lc,
            dijkstraPair g s t = some b) ∧
          (∀ c, b0 = some c → b.1 ≤ c.1) ∧
          ∀ s ∈ ss, ∀ t ∈ targetNodes g chords lc, ∀ c p,
            dijkstraPair g s t = some (c, p) → b.1 ≤ c := by
  intro ss
  induction ss with
  | nil =>
    intro _ b0
    refine ⟨⟨b0, rfl⟩, ?_⟩
    intro r hr
    obtain rfl := Option.some.inj hr
    constructor
    · intro h
      exact ⟨h, by simp⟩
    · intro b hb
      refine ⟨Or.inl hb, fun c hc => ?_, by simp⟩
      exact le_of_eq (congrArg Prod.fst (Option.some.inj (hb.symm.trans hc)))
  | cons s rest ih =>
    intro hss b0
    have hs : s ∈ g.nodes := hss s (by simp)
    have hstep : startStep g chords b0 s
        = some ((targetNodes g chords lc).foldl (targetStep g s) b0) := by
      unfold startStep
      rw [if_pos hs, hlc]
      rfl
    have hfold : (s :: rest).foldlM (startStep g chords) b0
        = (startStep g chords b0 s).bind fun b' =>
            rest.foldlM (startStep g chords) b' := rfl
    obtain ⟨hT1, hT2⟩ := foldl_targetStep_spec g s (targetNodes g chords lc) b0
    obtain ⟨⟨r0, hr0⟩, hihall⟩ :=
      ih (fun x hx => hss x (List.mem_cons_of_mem _ hx))
        ((targetNodes g chords lc).foldl (targetStep g s) b0)
    constructor
    · refine ⟨r0, ?_⟩
      rw [hfold, hstep]
      exact hr0
    · intro r hr
      rw [hfold, hstep, Option.some_bind] at hr
      obtain ⟨hnone, hsome⟩ := hihall r hr
      constructor
      · intro hrn
        obtain ⟨hb1n, hrest⟩ := hnone hrn
        obtain ⟨hb0, hts⟩ := hT1 hb1n
        refine ⟨hb0, fun s' hs' t ht => ?_⟩
        rcases List.mem_cons.mp hs' with rfl | hs2
        · exact hts t ht
        · exact hrest s' hs2 t ht
      · intro b hb
        obtain ⟨hsrc, hinit, hmin⟩ := hsome b hb
        refine ⟨?_, ?_, ?_⟩
        · rcases hsrc with h1 | ⟨s', hs', t, ht, h2⟩
          · obtain ⟨hsrc2, _, _⟩ := hT2 b h1
            rcases hsrc2 with h3 | ⟨t, ht, h4⟩
            · exact Or.inl h3
            · exact Or.inr ⟨s, by simp, t, ht, h4⟩
          · exact Or.inr ⟨s', List.mem_cons_of_mem _ hs', t, ht, h2⟩
        · intro c hc
          cases hb1 : (targetNodes g chords lc).foldl (targetStep g s) b0 with
          | none =>
            obtain ⟨hb0n, _⟩ := hT1 hb1
            rw [hb0n] at hc
            cases hc
          | some b1v =>
            obtain ⟨_, hinit2, _⟩ := hT2 b1v hb1
            exact le_trans (hinit b1v hb1) (hinit2 c hc)
        · intro s' hs' t ht c p hdp
          rcases List.mem_cons.mp hs' with rfl | hs2
          · cases hb1 : (targetNodes g chords lc).foldl (targetStep g s') b0 with
            | none =>
              obtain ⟨_, hts⟩ := hT1 hb1
              rw [hts t ht] at hdp
              cases hdp
            | some b1v =>
              obtain ⟨_, _, hmin2⟩ := hT2 b1v hb1
              exact le_trans (hinit b1v hb1) (hmin2 t ht c p hdp)
          · exact hmin s' hs2 t ht c p hdp

theorem find_optimal_eq_none {g : Graph} {ss : List Node} {chords : List String}
    (h : ss.foldlM (startStep g chords) none = some none) :
    find_optimal_voice_leading g ss chords = some [] := by
  unfold find_optimal_voice_leading
  rw [h]
  rfl

theorem find_optimal_eq_some {g : Graph} {ss : List Node} {chords : List String}
    {b : Nat × List Node}
    (h : ss.foldlM (startStep g chords) none = some (some b)) :
    find_optimal_voice_leading g ss chords
      = some (b.2.map fun n => (n.2.1, n.2.2.1, n.2.2.2)) := by
  unfold find_optimal_voice_leading
  rw [h]
  rfl

/-! ### Claim C1: behaviour when no feasible voice leading exists -/

/-- The graph built for `["C", "G"]` over range `(60, 70)`: the narrow
range leaves chord `G` without any voicing, so the final layer is empty
and nothing is reachable. -/
def exGraphC1 : Graph := ⟨[(0, "C", "C E G", [60, 64, 67])], []⟩

/-- C1: the claim says that when no path connects any start node to any
qualifying final-layer node, `find_optimal_voice_leading` signals an
explicit "no feasible voice leading" error and never returns an empty
list as a silent success.  The code refutes this: for `["C", "G"]` over
range `(60, 70)` no final-layer `G` node exists at all, and the function
returns `some []` — an empty list as an ordinary value, not an error. -/
theorem C1_counterexample :
    build_voice_leading_graph ["C", "G"] (60, 70) exTriadsCG = some exGraphC1 ∧
    targetNodes exGraphC1 ["C", "G"] "G" = [] ∧
    find_optimal_voice_leading exGraphC1 [(0, "C", "C E G", [60, 64, 67])]
      ["C", "G"] = some [] := by
  refine ⟨by decide, by decide, by decide⟩

/-- C1 (amended): when no walk connects any start node (all present in
the graph) to any qualifying final-layer node, and the progression is
non-empty, `find_optimal_voice_leading` returns `some []` — the empty
list as a successful value — rather than signalling a "no feasible voice
leading" error. -/
theorem C1_spec {g : Graph} {ss : List Node} {chords : List String} {lc : String}
    (hss : ∀ s ∈ ss, s ∈ g.nodes)
    (hlc : chords.getLast? = some lc)
    (hnowalk : ∀ s ∈ ss, ∀ t ∈ targetNodes g chords lc, ∀ wk c,
      wk.head? = some s → wk.getLast? = some t → walkCost g wk = some c → False) :
    find_optimal_voice_leading g ss chords = some [] := by
  obtain ⟨⟨r, hr⟩, hall⟩ := foldlM_startStep_spec g chords lc hlc ss hss none
  obtain ⟨hnone, hsome⟩ := hall r hr
  cases r with
  | none => exact find_optimal_eq_none hr
  | some b =>
    obtain ⟨c, p⟩ := b
    obtain ⟨hsrc, _, _⟩ := hsome (c, p) rfl
    rcases hsrc with h1 | ⟨s, hs, t, ht, h2⟩
    · cases h1
    · obtain ⟨hh, hl, hcw, _⟩ := dijkstraPair_some h2
      exact (hnowalk s hs t ht p c hh hl hcw).elim

theorem C1_witness :
    find_optimal_voice_leading exGraphC1 [(0, "C", "C E G", [60, 64, 67])]
      ["C", "G"] = some [] :=
  @C1_spec exGraphC1 [(0, "C", "C E G", [60, 64, 67])] ["C", "G"] "G"
    (by decide) (by decide) (fun s hs t ht wk c hh hl hcw => by
    rw [show targetNodes exGraphC1 ["C", "G"] "G" = [] from by decide] at ht
    cases ht)

/-! ### Walks in layered graphs -/

theorem walkCost_cons_split {g : Graph} {u v : Node} {t : List Node} {c : Nat}
    (hc : walkCost g (u :: v :: t) = some c) :
    ∃ w c', edgeWeight g u v = some w ∧ walkCost g (v :: t) = some c' ∧
      c = w + c' := by
  unfold walkCost at hc
  cases hw : edgeWeight g u v with
  | none => rw [hw] at hc; cases hc
  | some w =>
    rw [hw] at hc
    cases hc2 : walkCost g (v :: t) with
    | none => rw [hc2] at hc; cases hc
    | some c' =>
      rw [hc2] at hc
      exact ⟨w, c', rfl, rfl, (Option.some.inj hc).symm⟩

/-- Along a costed walk of a layered graph, node positions increase by
exactly one per step. -/
theorem walk_positions {g : Graph}
    (hlay : ∀ e ∈ g.edges, e.2.1.1 = e.1.1 + 1) :
    ∀ (rest : List Node) (u : Node) (c : Nat),
      walkCost g (u :: rest) = some c →
      ∀ (j : Nat) (hj : j < (u :: rest).length),
        ((u :: rest).get ⟨j, hj⟩).1 = u.1 + j := by
  intro rest
  induction rest with
  | nil =>
    intro u c hc j hj
    have : j = 0 := by simpa using Nat.lt_one_iff.mp (by simpa using hj)
    subst this
    simp
  | cons v t ih =>
    intro u c hc j hj
    obtain ⟨w, c', hw, hc', _⟩ := walkCost_cons_split hc
    have hv1 : v.1 = u.1 + 1 := hlay _ (edgeWeight_some hw)
    cases j with
    | zero => simp
    | succ k =>
      have hk : k < (v :: t).length := by simpa using hj
      have hrec := ih v c' hc' k hk
      rw [List.get_cons_succ]
      rw [hrec, hv1]
      omega

/-- The last node of a costed walk of a layered graph sits
`length - 1` layers above the head. -/
theorem walk_last_layer {g : Graph}
    (hlay : ∀ e ∈ g.edges, e.2.1.1 = e.1.1 + 1) :
    ∀ (rest : List Node) (u t : Node) (c : Nat),
      walkCost g (u :: rest) = some c →
      (u :: rest).getLast? = some t →
      t.1 = u.1 + ((u :: rest).length - 1) := by
  intro rest
  induction rest with
  | nil =>
    intro u t c _ hlast
    obtain rfl := Option.some.inj hlast
    simp
  | cons v tl ih =>
    intro u t c hc hlast
    obtain ⟨w, c', hw, hc', _⟩ := walkCost_cons_split hc
    have hv1 : v.1 = u.1 + 1 := hlay _ (edgeWeight_some hw)
    have hlast' : (v :: tl).getLast? = some t := hlast
    have := ih v t c' hc' hlast'
    simp only [List.length_cons] at *
    omega

/-- A costed walk of a layered graph has pairwise distinct nodes. -/
theorem walk_nodup {g : Graph}
    (hlay : ∀ e ∈ g.edges, e.2.1.1 = e.1.1 + 1)
    {u : Node} {rest : List Node} {c : Nat}
    (hc : walkCost g (u :: rest) = some c) : (u :: rest).Nodup := by
  rw [List.nodup_iff_injective_get]
  intro a b hab
  have ha' : ((u :: rest).get a).1 = u.1 + a.val :=
    walk_positions hlay rest u c hc a.val a.isLt
  have hb' : ((u :: rest).get b).1 = u.1 + b.val :=
    walk_positions hlay rest u c hc b.val b.isLt
  have hab' : ((u :: rest).get a).1 = ((u :: rest).get b).1 := by rw [hab]
  apply Fin.ext
  omega

/-- All nodes of a costed walk starting at a graph node are graph
nodes. -/
theorem walk_mem_nodes {g : Graph}
    (hend : ∀ e ∈ g.edges, e.1 ∈ g.nodes ∧ e.2.1 ∈ g.nodes) :
    ∀ (rest : List Node) (u : Node) (c : Nat), u ∈ g.nodes →
      walkCost g (u :: rest) = some c → ∀ x ∈ u :: rest, x ∈ g.nodes := by
  intro rest
  induction rest with
  | nil =>
    intro u c hu _ x hx
    obtain rfl : x = u := by simpa using hx
    exact hu
  | cons v t ih =>
    intro u c hu hc x hx
    obtain ⟨w, c', hw, hc', _⟩ := walkCost_cons_split hc
    have hv : v ∈ g.nodes := (hend _ (edgeWeight_some hw)).2
    rcases List.mem_cons.mp hx with rfl | hx2
    · exact hu
    · exact ih v c' hv hc' x hx2

/-- A duplicate-free list of graph nodes is no longer than the node
list. -/
theorem walk_length_le {g : Graph} {wk : List Node}
    (hnd : wk.Nodup) (hsub : ∀ x ∈ wk, x ∈ g.nodes) :
    wk.length ≤ g.nodes.length := by
  have h1 : wk.toFinset.card = wk.length := List.toFinset_card_of_nodup hnd
  have h2 : wk.toFinset ⊆ g.nodes.toFinset := by
    intro x hx
    rw [List.mem_toFinset] at hx ⊢
    exact hsub x hx
  calc wk.length = wk.toFinset.card := h1.symm
    _ ≤ g.nodes.toFinset.card := Finset.card_le_card h2
    _ ≤ g.nodes.length := List.toFinset_card_le _

/-! ### Claim C5: global optimality of the returned path -/

/-- C5: for a built graph, the layer-0 start set matching the first
chord, and at least one qualifying final-layer node reachable from some
start node, `find_optimal_voice_leading` returns the projection of a
walk from some start node to some qualifying target whose total weight
is minimal over ALL start nodes and ALL qualifying targets (a global
minimum, not a per-start minimum), with exactly one node per progression
position `0, 1, ..., len - 1` in increasing order with no gaps. -/
theorem C5_spec {chords : List String} {mr : Int × Int}
    {triads : String → List String} {g : Graph} {lc : String}
    (hg : build_voice_leading_graph chords mr triads = some g)
    (hlc : chords.getLast? = some lc)
    (start_chords : List Node)
    (hstart : start_chords = g.nodes.filter fun n =>
      decide (n.1 = 0 ∧ n.2.1 = chords.getD 0 ""))
    (hreach : ∃ s ∈ start_chords, ∃ t ∈ targetNodes g chords lc,
      ∃ wk c, wk.head? = some s ∧ wk.getLast? = some t ∧
        walkCost g wk = some c) :
    ∃ p c s t, s ∈ start_chords ∧ t ∈ targetNodes g chords lc ∧
      p.head? = some s ∧ p.getLast? = some t ∧ walkCost g p = some c ∧
      find_optimal_voice_leading g start_chords chords
        = some (p.map fun n => (n.2.1, n.2.2.1, n.2.2.2)) ∧
      p.length = chords.length ∧
      (∀ j (hj : j < p.length), (p.get ⟨j, hj⟩).1 = j) ∧
      ∀ s' ∈ start_chords, ∀ t' ∈ targetNodes g chords lc, ∀ wk c',
        wk.head? = some s' → wk.getLast? = some t' → walkCost g wk = some c' →
        c ≤ c' := by
  obtain ⟨hwf, _⟩ := build_edge_char hg
  have hlay : ∀ e ∈ g.edges, e.2.1.1 = e.1.1 + 1 :=
    fun e he => (build_edges_shape hg e he).1
  have hLpos : 0 < chords.length := by
    cases chords with
    | nil => cases hlc
    | cons a l => simp
  have hss : ∀ s ∈ start_chords, s ∈ g.nodes := by
    intro s hs
    rw [hstart] at hs
    exact List.mem_of_mem_filter hs
  have hs0 : ∀ s ∈ start_chords, s.1 = 0 := by
    intro s hs
    rw [hstart] at hs
    have := List.of_mem_filter hs
    simp only [decide_eq_true_eq] at this
    exact this.1
  have ht1 : ∀ t ∈ targetNodes g chords lc, t.1 = chords.length - 1 := by
    intro t ht
    have := List.of_mem_filter ht
    simp only [decide_eq_true_eq] at this
    exact this.1
  have hwalk : ∀ s' ∈ start_chords, ∀ t' ∈ targetNodes g chords lc, ∀ wk c',
      wk.head? = some s' → wk.getLast? = some t' → walkCost g wk = some c' →
      wk.length = chords.length ∧ wk.length ≤ g.nodes.length + 1 := by
    intro s' hs' t' ht' wk c' hh hl hcw
    cases wk with
    | nil => cases hh
    | cons x rest =>
      have hxu : x = s' := by simpa using hh
      have hlen1 : t'.1 = x.1 + ((x :: rest).length - 1) :=
        walk_last_layer hlay rest x t' c' hcw hl
      have h1 : x.1 = 0 := by rw [hxu]; exact hs0 s' hs'
      have h2 := ht1 t' ht'
      have h3 : 0 < (x :: rest).length := by simp
      have hlen2 : (x :: rest).length = chords.length := by omega
      refine ⟨hlen2, ?_⟩
      have hnd := walk_nodup hlay hcw
      have hxn : x ∈ g.nodes := by rw [hxu]; exact hss s' hs'
      have hsubn := walk_mem_nodes hwf.2.2.1 rest x c' hxn hcw
      have := walk_length_le hnd hsubn
      omega
  obtain ⟨s0, hs0m, t0, ht0m, wk0, c0, hh0, hl0, hcw0⟩ := hreach
  obtain ⟨r0, hr0⟩ := dijkstraPair_isSome_of_walk hh0 hl0 hcw0
    (hwalk s0 hs0m t0 ht0m wk0 c0 hh0 hl0 hcw0).2
  obtain ⟨⟨r, hr⟩, hall⟩ := foldlM_startStep_spec g chords lc hlc start_chords hss none
  obtain ⟨hnone, hsome⟩ := hall r hr
  cases r with
  | none =>
    exfalso
    obtain ⟨_, hts⟩ := hnone rfl
    rw [hts s0 hs0m t0 ht0m] at hr0
    cases hr0
  | some b =>
    obtain ⟨c, p⟩ := b
    obtain ⟨hsrc, _, hmin⟩ := hsome (c, p) rfl
    rcases hsrc with h1 | ⟨s, hsm, t, htm, hd⟩
    · cases h1
    · obtain ⟨hh, hl, hcw, _⟩ := dijkstraPair_some hd
      have hstruct := hwalk s hsm t htm p c hh hl hcw
      refine ⟨p, c, s, t, hsm, htm, hh, hl, hcw, find_optimal_eq_some hr,
        hstruct.1, ?_, ?_⟩
      · intro j hj
        cases p with
        | nil => cases hh
        | cons x rest =>
          have hxs : x = s := by simpa using hh
          have hpos := walk_positions hlay rest x c hcw j hj
          have hx0 : x.1 = 0 := by rw [hxs]; exact hs0 s hsm
          rw [hpos, hx0]
          omega
      · intro s' hs' t' ht' wk c' hh' hl' hcw'
        obtain ⟨hwlen, hwbound⟩ := hwalk s' hs' t' ht' wk c' hh' hl' hcw'
        obtain ⟨⟨c1, p1⟩, hd1⟩ := dijkstraPair_isSome_of_walk hh' hl' hcw' hwbound
        obtain ⟨_, _, _, hmin1⟩ := dijkstraPair_some hd1
        exact le_trans (hmin s' hs' t' ht' c1 p1 hd1)
          (hmin1 wk c' hh' hl' hcw' hwbound)

def exStartsCG : List Node := [(0, "C", "C E G", [60, 64, 67])]

theorem C5_witness :
    ∃ p c s t, s ∈ exStartsCG ∧ t ∈ targetNodes exGraphCG ["C", "G"] "G" ∧
      p.head? = some s ∧ p.getLast? = some t ∧ walkCost exGraphCG p = some c ∧
      find_optimal_voice_leading exGraphCG exStartsCG ["C", "G"]
        = some (p.map fun n => (n.2.1, n.2.2.1, n.2.2.2)) ∧
      p.length = (["C", "G"] : List String).length ∧
      (∀ j (hj : j < p.length), (p.get ⟨j, hj⟩).1 = j) ∧
      ∀ s' ∈ exStartsCG, ∀ t' ∈ targetNodes exGraphCG ["C", "G"] "G", ∀ wk c',
        wk.head? = some s' → wk.getLast? = some t' →
        walkCost exGraphCG wk = some c' → c ≤ c' :=
  @C5_spec ["C", "G"] (55, 70) exTriadsCG exGraphCG "G" (by decide) (by decide)
    exStartsCG (by decide)
    ⟨(0, "C", "C E G", [60, 64, 67]), by decide,
     (1, "G", "G B D", [55, 59, 62]), by decide,
     [(0, "C", "C E G", [60, 64, 67]), (1, "G", "G B D", [55, 59, 62])], 15,
     by decide, by decide, by decide⟩

/-! ## chord_utils.py

`chord_utils.py` imports `CHROMATIC_SCALE`, `SCALE_INTERVALS` and
`ENHARMONIC_MAP` from `constants`, but neither `constants.py` in the
repository defines them; those three are modelled from the spec.  The
theorems below do not depend on their particular contents. -/

/-- Modelled from the spec: `CHROMATIC_SCALE`, the canonical chromatic
spellings used for lookup ("Root normalized to a canonical chromatic
spelling"); missing from the repository's `constants.py`. -/
def CHROMATIC_SCALE : List String :=
  ["C", "C#", "D", "D#", "E", "F"] ++ ["F#", "G", "G#", "A", "A#", "B"]

/-- Modelled from the spec: `ENHARMONIC_MAP`, mapping enharmonic flat
root spellings to the canonical sharp spelling; missing from the
repository's `constants.py`. -/
def ENHARMONIC_MAP : List (String × String) :=
  [("Db", "C#"), ("Eb", "D#"), ("Gb", "F#"), ("Ab", "G#"), ("Bb", "A#")]

/-- Modelled from the spec: `SCALE_INTERVALS`, the fixed scale-step
patterns per quality ("major/minor/diminished/augmented scale-step
sequences", third = `sum(intervals[:2])`, fifth = `sum(intervals[:4])`);
missing from the repository's `constants.py`. -/
def SCALE_INTERVALS : List (String × List Nat) :=
  [("M", [2, 2, 1, 2, 2, 2, 1]), ("m", [2, 1, 2, 2, 1, 2, 2]),
   ("dim", [2, 1, 2, 1, 2, 1, 2]), ("aug", [2, 2, 2, 2, 2, 2])]

/-- The exceptions that `chord_utils.py` can raise, plus the `ParseError`
that the spec promises but the code never constructs. -/
inductive ChordError where
  | attributeError
  | valueError
  | unboundLocalError
  | parseError (token : String)
deriving DecidableEq

/-- `re.match(r"([A-G][#b]?)(.*)", chord)`: the root group and the
remaining text, or `none` when the first character is not `A`-`G`. -/
def matchRoot (chord : String) : Option (String × String) :=
  match chord.data with
  | [] => none
  | c :: rest =>
    if 'A' ≤ c ∧ c ≤ 'G' then
      match rest with
      | d :: rest2 =>
        if d = '#' ∨ d = 'b' then some (String.mk [c, d], String.mk rest2)
        else some (String.mk [c], String.mk rest)
      | [] => some (String.mk [c], "")
    else none

/-- `parse_chord(chord)` from `chord_utils.py`.  When the regex does not
match, `match` is `None` and `match.group(1)` raises `AttributeError`. -/
def parse_chord (chord : String) : Except ChordError (String × String × String) :=
  match matchRoot chord with
  | none => Except.error ChordError.attributeError
  | some (original_root_note, rest) =>
    let standardized_root_note :=
      (ENHARMONIC_MAP.lookup original_root_note).getD original_root_note
    let chord_type := if rest ≠ "" then rest else "M"
    Except.ok (original_root_note, standardized_root_note, chord_type)

/-- Body of `generate_triads` after a successful `parse_chord`. -/
def generate_triads_core (original_root standardized_root chord_type
    triad_type : String) : Except ChordError (List String) :=
  match CHROMATIC_SCALE.findIdx? (fun s => s == standardized_root) with
  | none => Except.error ChordError.valueError
  | some root_index =>
    let intervals := (SCALE_INTERVALS.lookup chord_type).getD
      ((SCALE_INTERVALS.lookup "M").getD [])
    let n1 := CHROMATIC_SCALE.getD root_index ""
    let n2 := CHROMATIC_SCALE.getD
      ((root_index + (intervals.take 2).sum) % CHROMATIC_SCALE.length) ""
    let n3 := CHROMATIC_SCALE.getD
      ((root_index + (intervals.take 4).sum) % CHROMATIC_SCALE.length) ""
    let triadsSel : Option (List (List String)) :=
      if triad_type = "all" then
        some [[n1, n2, n3], [n1, n3, n2], [n2, n1, n3],
              [n2, n3, n1], [n3, n1, n2], [n3, n2, n1]]
      else if triad_type = "close" then
        some [[n1, n2, n3], [n2, n3, n1], [n3, n1, n2]]
      else if triad_type = "spread" then
        some [[n1, n3, n2], [n2, n1, n3], [n3, n2, n1]]
      else none
    match triadsSel with
    | none => Except.error ChordError.unboundLocalError
    | some ts => Except.ok (ts.map fun p =>
        (String.intercalate " " p).replace standardized_root original_root)

/-- `generate_triads(chord, triad_type)` from `chord_utils.py`:
`Except.error` models the exception raised on an invalid root
(`AttributeError` via `parse_chord`), a standardized root missing from
the chromatic scale (`ValueError` from `.index`), or an unhandled
`triad_type` (the `triads` local is never assigned, so the final list
comprehension raises `UnboundLocalError`); the Python parameter
`triad_type` defaults to `"spread"`. -/
def generate_triads (chord : String) (triad_type : String) :
    Except ChordError (List String) :=
  match parse_chord chord with
  | Except.error e => Except.error e
  | Except.ok (original_root, standardized_root, chord_type) =>
    generate_triads_core original_root standardized_root chord_type triad_type

/-- The chord token does not begin with a letter `A`-`G`, so its root is
not a valid pitch-class name. -/
def invalidRoot (chord : String) : Bool :=
  match chord.data with
  | [] => true
  | c :: _ => !(decide ('A' ≤ c ∧ c ≤ 'G'))

theorem matchRoot_eq_none {chord : String} (h : invalidRoot chord = true) :
    matchRoot chord = none := by
  unfold invalidRoot at h
  unfold matchRoot
  cases hd : chord.data with
  | nil => rfl
  | cons c rest =>
    rw [hd] at h
    simp only [Bool.not_eq_true', decide_eq_false_iff_not] at h
    simp [h]

/-! ### Claim C7: parse failure on an invalid root -/

/-- C7: the claim says that for a chord token whose root is not a valid
pitch-class name, parsing fails with a parse error reporting the
offending token.  The code refutes this: `re.match` returns `None` and
`match.group(1)` raises an `AttributeError` — an unrelated exception
that carries no token — as the token `"H7"` demonstrates. -/
theorem C7_counterexample :
    invalidRoot "H7" = true ∧
    parse_chord "H7" = Except.error ChordError.attributeError ∧
    ChordError.attributeError ≠ ChordError.parseError "H7" := by
  refine ⟨by decide, ?_, by decide⟩
  unfold parse_chord
  rw [matchRoot_eq_none (by decide)]

/-- C7 (amended): for every chord token whose root is not a valid
pitch-class name (the token does not begin with a letter `A`-`G`),
parsing fails — never a silent default — but with the `AttributeError`
raised by calling `.group` on the failed match, not with a parse error
reporting the offending token. -/
theorem C7_spec {chord : String} (h : invalidRoot chord = true) :
    parse_chord chord = Except.error ChordError.attributeError := by
  unfold parse_chord
  rw [matchRoot_eq_none h]

theorem C7_witness :
    parse_chord "h" = Except.error ChordError.attributeError :=
  C7_spec (by decide)

/-! ### Claim C10: unhandled triad_type -/

/-- C10: for every chord token with a valid root and every `triad_type`
outside {"all", "close", "spread"}, `generate_triads` fails with an
error — the `triads` local is never assigned (or, for a standardized
root outside the chromatic scale, `.index` fails first) — rather than
returning a list or falling back to a default triad type. -/
theorem C10_spec {chord : String} {triad_type : String}
    (hroot : (matchRoot chord).isSome)
    (ht : triad_type ≠ "all" ∧ triad_type ≠ "close" ∧ triad_type ≠ "spread") :
    ∃ e, generate_triads chord triad_type = Except.error e := by
  obtain ⟨⟨root, rest⟩, hmr⟩ := Option.isSome_iff_exists.mp hroot
  have hparse : parse_chord chord = Except.ok (root,
      (ENHARMONIC_MAP.lookup root).getD root, if rest ≠ "" then rest else "M") := by
    unfold parse_chord
    rw [hmr]
  have hgen : generate_triads chord triad_type
      = generate_triads_core root ((ENHARMONIC_MAP.lookup root).getD root)
        (if rest ≠ "" then rest else "M") triad_type := by
    unfold generate_triads
    rw [hparse]
  rw [hgen]
  unfold generate_triads_core
  cases hidx : CHROMATIC_SCALE.findIdx?
      (fun s => s == (ENHARMONIC_MAP.lookup root).getD root) with
  | none => exact ⟨ChordError.valueError, rfl⟩
  | some root_index =>
    refine ⟨ChordError.unboundLocalError, ?_⟩
    simp only [if_neg ht.1, if_neg ht.2.1, if_neg ht.2.2]

theorem C10_witness :
    ∃ e, generate_triads "C" "open" = Except.error e :=
  C10_spec (by decide) ⟨by decide, by decide, by decide⟩

end VoiceLeading
